import Mathlib

/-!
Telemetry: name anonymization and report ordering

A shallow embedding of `src/Telemetry.cpp` / `src/Telemetry.h`:

* `AnonymizeNames` (the `IRMutator` subclass with its `remapping` map, `remap`,
  `remap_var_name` and the two `visit` overrides),
* `BasicTelemetry` (the three record collections, the `record_*` operations,
  `anonymize`, the three sections written by `finalize`, and `from_env`).

Conventions of the embedding

* `std::map<std::string, std::string> remapping` is a list of (key, value)
  entries kept in insertion order.  `remap` only ever uses `size()` and
  `insert` (which does not overwrite), so iteration order is irrelevant; on
  every map built by `remap` the keys are pairwise distinct and `size()` is the
  length of the list.
* A mutating member function becomes a function returning the result together
  with the new map (explicit state passing).
* `std::map<std::string, int64_t>` is the list of its entries in iteration
  order (ascending keys).  `std::set<P, Compare>` is the list of its elements in
  iteration order; `emplace` inserts at the position given by the comparator
  unless an equivalent element is already present.
* The values of environment variables and the expression printer are
  parameters.
-/

namespace Halide

/-! ## Expression trees -/

/-- Modelled from the spec: the scalar type code of `Type` (declared in `Type.h`, not part of
the sources at hand). -/
inductive TypeCode
  | Int | UInt | Float | Handle
  deriving DecidableEq, Repr

/-- Modelled from the spec: the `Type` carried by every expression node ("typed nodes");
`Type.h` is not part of the sources at hand. -/
structure Type_ where
  code : TypeCode
  bits : Nat
  lanes : Nat
  deriving DecidableEq, Repr

/-- Modelled from the spec: `Call::CallType` (declared in `IR.h`, not part of the sources at
hand).  `Telemetry.cpp` names `Extern`, `ExternCPlusPlus` and `Image`; the others are the
"builtin/intrinsic" kinds. -/
inductive CallType
  | Image | Extern | ExternCPlusPlus | PureExtern | Halide | Intrinsic | PureIntrinsic
  deriving DecidableEq, Repr

/-- Modelled from the spec: the binary operator nodes of `IR.h` (not part of the sources at
hand), which all share one shape and one default `IRMutator::visit`. -/
inductive BinOp
  | Add | Sub | Mul | Div | Mod | Min | Max | EQ | NE | LT | LE | GT | GE | And | Or
  deriving DecidableEq, Repr

/-- Modelled from the spec: the expression tree ("an immutable, shared, tagged-variant tree of
typed nodes (variable reference, call, operators, literal)").  `Expr.h` / `IR.h` are not part of
the sources at hand; the node kinds are those of the IR that `IRMutator` traverses.  Only the
fields that `AnonymizeNames` reads or rebuilds are kept (`Variable::make (type, name)` fills
every other field of a variable node with its default). -/
inductive Expr
  | IntImm (type : Type_) (value : Int)
  | UIntImm (type : Type_) (value : Nat)
  | StringImm (value : String)
  | Cast (type : Type_) (value : Expr)
  | Variable (type : Type_) (name : String)
  | Binary (op : BinOp) (type : Type_) (a b : Expr)
  | Not (type : Type_) (a : Expr)
  | Select (type : Type_) (condition true_value false_value : Expr)
  | Load (type : Type_) (name : String) (predicate index : Expr)
  | Ramp (type : Type_) (base stride : Expr) (lanes : Nat)
  | Broadcast (type : Type_) (value : Expr) (lanes : Nat)
  | Let (type : Type_) (name : String) (value body : Expr)
  | Call (type : Type_) (name : String) (args : List Expr) (call_type : CallType)
  | Shuffle (type : Type_) (vectors : List Expr) (indices : List Int)
  deriving Repr

/-! ## `AnonymizeNames` -/

/-- The data member `std::map<std::string, std::string> remapping` of `AnonymizeNames`:
entries (original name, alias) in insertion order. -/
abbrev Remapping := List (String × String)

/-- Embeds `remapping.find (k)`: the value stored under key `k`, if any. -/
def Remapping.lookup (k : String) : Remapping → Option String
  | [] => none
  | (k', v) :: rest => if k' = k then some v else Remapping.lookup k rest

/-- Embeds `remapping.insert ({k, v})`: adds the entry when `k` is absent and leaves the map
untouched otherwise; returns the value now stored under `k` (`p.first->second`) and the map. -/
def Remapping.insert (k v : String) (remapping : Remapping) : String × Remapping :=
  match Remapping.lookup k remapping with
  | some existing => (existing, remapping)
  | none => (v, remapping ++ [(k, v)])

namespace AnonymizeNames

/-- Embeds `AnonymizeNames::remap (var_name, replacement)` (Telemetry.cpp 41-46). -/
def remap (var_name replacement : String) (remapping : Remapping) : String × Remapping :=
  let anon_name := replacement ++ toString remapping.length
  Remapping.insert var_name anon_name remapping

/-- Embeds `AnonymizeNames::remap_var_name` (Telemetry.cpp 49-51). -/
def remap_var_name (var_name : String) (remapping : Remapping) : String × Remapping :=
  remap var_name "anon" remapping

/-- Embeds `AnonymizeNames::visit (const Call *op)` (Telemetry.cpp 26-35).  The last branch is
`return op;`: the node is handed back as it is. -/
def visit_Call (type : Type_) (name : String) (args : List Expr) (call_type : CallType)
    (remapping : Remapping) : Expr × Remapping :=
  if call_type = CallType.Extern ∨ call_type = CallType.ExternCPlusPlus then
    let r := remap name "define_extern_" remapping
    (Expr.Variable type r.1, r.2)
  else if call_type = CallType.Image then
    let r := remap name "image" remapping
    (Expr.Variable type r.1, r.2)
  else
    (Expr.Call type name args call_type, remapping)

/-- Embeds `AnonymizeNames::visit (const Variable *op)` (Telemetry.cpp 37-39). -/
def visit_Variable (type : Type_) (name : String) (remapping : Remapping) : Expr × Remapping :=
  let r := remap_var_name name remapping
  (Expr.Variable type r.1, r.2)

mutual
/-- Modelled from the spec: `IRMutator::mutate` with the default `IRMutator::visit` methods
(`IRMutator.h/.cpp` are not part of the sources at hand): "every other node kind is
reconstructed identically except that its children are recursively rewritten", children being
rewritten left to right.  Calls and variables dispatch to the two overrides of
`AnonymizeNames`. -/
def mutate : Expr → Remapping → Expr × Remapping
  | Expr.IntImm t v, m => (Expr.IntImm t v, m)
  | Expr.UIntImm t v, m => (Expr.UIntImm t v, m)
  | Expr.StringImm v, m => (Expr.StringImm v, m)
  | Expr.Cast t value, m =>
      let r := mutate value m
      (Expr.Cast t r.1, r.2)
  | Expr.Variable t name, m => visit_Variable t name m
  | Expr.Binary op t a b, m =>
      let ra := mutate a m
      let rb := mutate b ra.2
      (Expr.Binary op t ra.1 rb.1, rb.2)
  | Expr.Not t a, m =>
      let r := mutate a m
      (Expr.Not t r.1, r.2)
  | Expr.Select t c tv fv, m =>
      let rc := mutate c m
      let rt := mutate tv rc.2
      let rf := mutate fv rt.2
      (Expr.Select t rc.1 rt.1 rf.1, rf.2)
  | Expr.Load t name predicate index, m =>
      let rp := mutate predicate m
      let ri := mutate index rp.2
      (Expr.Load t name rp.1 ri.1, ri.2)
  | Expr.Ramp t base stride lanes, m =>
      let rb := mutate base m
      let rs := mutate stride rb.2
      (Expr.Ramp t rb.1 rs.1 lanes, rs.2)
  | Expr.Broadcast t value lanes, m =>
      let r := mutate value m
      (Expr.Broadcast t r.1 lanes, r.2)
  | Expr.Let t name value body, m =>
      let rv := mutate value m
      let rb := mutate body rv.2
      (Expr.Let t name rv.1 rb.1, rb.2)
  | Expr.Call t name args call_type, m => visit_Call t name args call_type m
  | Expr.Shuffle t vectors indices, m =>
      let r := mutateList vectors m
      (Expr.Shuffle t r.1 indices, r.2)
/-- Rewriting of a child list, left to right, threading the map. -/
def mutateList : List Expr → Remapping → List Expr × Remapping
  | [], m => ([], m)
  | e :: es, m =>
      let r := mutate e m
      let rs := mutateList es r.2
      (r.1 :: rs.1, rs.2)
end

/-- A sequence of `remap (name, replacement)` calls on one instance, in order. -/
def remapAll : List (String × String) → Remapping → Remapping
  | [], m => m
  | c :: cs, m => remapAll cs (remap c.1 c.2 m).2

end AnonymizeNames

/-! ## `BasicTelemetry` -/

/-- The data members of `BasicTelemetry` (Telemetry.h 90-96).  The rule counters are the
entries of the `std::map` in iteration order (ascending rule name). -/
structure BasicTelemetry where
  output_path : String
  matched_simplifier_rules : List (String × Int)
  non_monotonic_loop_vars : List (String × Expr)
  failed_to_prove_exprs : List (Expr × Expr)

namespace BasicTelemetry

/-- Embeds `operator <` of `std::string`: the lexicographic order of the character sequences. -/
def string_less (a b : String) : Bool := decide (a.data < b.data)

/-- Embeds `matched_simplifier_rules[rulename] += 1` on the entries of the `std::map`: `operator[]`
creates the entry with value 0 when the key is absent.  The counters are `int64_t`; they are
modelled on the integers, which agrees with the `int64_t` addition as long as the counter is
below `INT64_MAX` (the theorems on counters assume it). -/
def increment (rulename : String) : List (String × Int) → List (String × Int)
  | [] => [(rulename, 0 + 1)]
  | (k, v) :: rest =>
      if string_less rulename k then (rulename, 0 + 1) :: (k, v) :: rest
      else if string_less k rulename then (k, v) :: increment rulename rest
      else (k, v + 1) :: rest

/-- Embeds `BasicTelemetry::record_matched_simplifier_rule` (Telemetry.cpp 72-74). -/
def record_matched_simplifier_rule (rulename : String) (s : BasicTelemetry) : BasicTelemetry :=
  { s with matched_simplifier_rules := increment rulename s.matched_simplifier_rules }

/-- Embeds `BasicTelemetry::record_non_monotonic_loop_var` (Telemetry.cpp 76-78). -/
def record_non_monotonic_loop_var (loop_var : String) (expr : Expr) (s : BasicTelemetry) :
    BasicTelemetry :=
  { s with non_monotonic_loop_vars := s.non_monotonic_loop_vars ++ [(loop_var, expr)] }

/-- Embeds `BasicTelemetry::record_failed_to_prove` (Telemetry.cpp 79-81). -/
def record_failed_to_prove (failed_to_prove original_expr : Expr) (s : BasicTelemetry) :
    BasicTelemetry :=
  { s with failed_to_prove_exprs := s.failed_to_prove_exprs ++ [(failed_to_prove, original_expr)] }

/-- The first loop of `anonymize` (Telemetry.cpp 92-95), threading the anonymizer's map. -/
def anonymize_loop_vars : List (String × Expr) → Remapping → List (String × Expr) × Remapping
  | [], m => ([], m)
  | it :: rest, m =>
      let first := AnonymizeNames.remap_var_name it.1 m
      let second := AnonymizeNames.mutate it.2 first.2
      let rs := anonymize_loop_vars rest second.2
      ((first.1, second.1) :: rs.1, rs.2)

/-- The second loop of `anonymize` (Telemetry.cpp 96-99), threading the anonymizer's map. -/
def anonymize_failed : List (Expr × Expr) → Remapping → List (Expr × Expr) × Remapping
  | [], m => ([], m)
  | it :: rest, m =>
      let first := AnonymizeNames.mutate it.1 m
      let second := AnonymizeNames.mutate it.2 first.2
      let rs := anonymize_failed rest second.2
      ((first.1, second.1) :: rs.1, rs.2)

/-- The map held by the local `AnonymizeNames anonymizer` at the end of `anonymize`. -/
def anonymizer_map (s : BasicTelemetry) : Remapping :=
  (anonymize_failed s.failed_to_prove_exprs (anonymize_loop_vars s.non_monotonic_loop_vars []).2).2

/-- Embeds `BasicTelemetry::anonymize` (Telemetry.cpp 83-100); `no_anon` is the value of
`get_env_variable ("HL_TELEMETRY_NO_ANONYMIZE")`. -/
def anonymize (no_anon : String) (s : BasicTelemetry) : BasicTelemetry :=
  if no_anon = "1" then s
  else
    let loops := anonymize_loop_vars s.non_monotonic_loop_vars []
    let failed := anonymize_failed s.failed_to_prove_exprs loops.2
    { s with non_monotonic_loop_vars := loops.1, failed_to_prove_exprs := failed.1 }

/-- Embeds `std::set<P, Compare>::emplace` on the elements in iteration order: the new element goes
in front of the first element it precedes, and is dropped when an element equivalent to it
(neither precedes the other) is already there. -/
def set_emplace {α : Type} (comp : α → α → Bool) (x : α) : List α → List α
  | [] => [x]
  | y :: ys =>
      if comp x y then x :: y :: ys
      else if comp y x then y :: set_emplace comp x ys
      else y :: ys

/-- The loop `for (it : xs) sorted.emplace (it)` starting from the set `sorted`. -/
def emplace_all {α : Type} (comp : α → α → Bool) : List α → List α → List α
  | [], sorted => sorted
  | x :: xs, sorted => emplace_all comp xs (set_emplace comp x sorted)

/-- Embeds `Compare::operator ()` of the rule section (Telemetry.cpp 120-124). -/
def Compare (a b : String × Int) : Bool := decide (a.2 > b.2)

/-- Embeds `operator <` of `std::pair<std::string, std::string>`, the order of the two
`std::set<P>` (Telemetry.cpp 141, 158). -/
def pair_less (a b : String × String) : Bool :=
  string_less a.1 b.1 || (!string_less b.1 a.1 && string_less a.2 b.2)

/-- The three sections written by `finalize`, each as the list of its entries in the order
they are written. -/
structure Report where
  matched_simplifier_rules : List (String × Int)
  non_monotonic_loop_vars : List (String × String)
  failed_to_prove : List (String × String)

/-- The entries of the `matched_simplifier_rules` section (Telemetry.cpp 117-136). -/
def sorted_rules (rules : List (String × Int)) : List (String × Int) :=
  emplace_all Compare rules []

/-- Embeds `BasicTelemetry::finalize` (Telemetry.cpp 102-176): the session after `anonymize ()` and
the entries written to the stream.  `print` is `operator <<` on `Expr`. -/
def finalize (print : Expr → String) (no_anon : String) (s : BasicTelemetry) :
    BasicTelemetry × Report :=
  let s1 := anonymize no_anon s
  (s1,
   { matched_simplifier_rules := sorted_rules s1.matched_simplifier_rules
     non_monotonic_loop_vars :=
       emplace_all pair_less (s1.non_monotonic_loop_vars.map (fun it => (it.1, print it.2))) []
     failed_to_prove :=
       emplace_all pair_less
         (s1.failed_to_prove_exprs.map (fun it => (print it.1, print it.2))) [] })

/-- Embeds `BasicTelemetry::from_env` (Telemetry.cpp 178-190); `path` is the value of
`get_env_variable ("HL_TELEMETRY")`, `none` is the null pointer. -/
def from_env (path : String) : Option BasicTelemetry :=
  if path.isEmpty ∨ path = "0" then none
  else if path = "1" then some ⟨"", [], [], []⟩
  else some ⟨path, [], [], []⟩

end BasicTelemetry

/-! ## Vocabulary of the specification -/

mutual
/-- The names of all variable-reference nodes of a tree, left to right. -/
def Expr.variables : Expr → List String
  | Expr.IntImm _ _ => []
  | Expr.UIntImm _ _ => []
  | Expr.StringImm _ => []
  | Expr.Cast _ value => value.variables
  | Expr.Variable _ name => [name]
  | Expr.Binary _ _ a b => a.variables ++ b.variables
  | Expr.Not _ a => a.variables
  | Expr.Select _ c tv fv => c.variables ++ tv.variables ++ fv.variables
  | Expr.Load _ _ predicate index => predicate.variables ++ index.variables
  | Expr.Ramp _ base stride _ => base.variables ++ stride.variables
  | Expr.Broadcast _ value _ => value.variables
  | Expr.Let _ _ value body => value.variables ++ body.variables
  | Expr.Call _ _ args _ => Expr.variablesList args
  | Expr.Shuffle _ vectors _ => Expr.variablesList vectors
/-- The names of all variable-reference nodes of a list of trees. -/
def Expr.variablesList : List Expr → List String
  | [] => []
  | e :: es => e.variables ++ Expr.variablesList es
end

mutual
/-- The kinds of all call nodes of a tree, left to right, parents first. -/
def Expr.callKinds : Expr → List CallType
  | Expr.IntImm _ _ => []
  | Expr.UIntImm _ _ => []
  | Expr.StringImm _ => []
  | Expr.Cast _ value => value.callKinds
  | Expr.Variable _ _ => []
  | Expr.Binary _ _ a b => a.callKinds ++ b.callKinds
  | Expr.Not _ a => a.callKinds
  | Expr.Select _ c tv fv => c.callKinds ++ tv.callKinds ++ fv.callKinds
  | Expr.Load _ _ predicate index => predicate.callKinds ++ index.callKinds
  | Expr.Ramp _ base stride _ => base.callKinds ++ stride.callKinds
  | Expr.Broadcast _ value _ => value.callKinds
  | Expr.Let _ _ value body => value.callKinds ++ body.callKinds
  | Expr.Call _ _ args call_type => call_type :: Expr.callKindsList args
  | Expr.Shuffle _ vectors _ => Expr.callKindsList vectors
/-- The kinds of all call nodes of a list of trees. -/
def Expr.callKindsList : List Expr → List CallType
  | [] => []
  | e :: es => e.callKinds ++ Expr.callKindsList es
end

/-- The three call kinds that `AnonymizeNames` collapses to a variable reference. -/
def CallType.isExternOrImage (c : CallType) : Bool :=
  c = CallType.Extern || c = CallType.ExternCPlusPlus || c = CallType.Image

mutual
/-- The renaming `s (e)`: every variable name and every name of a call of kind Extern,
ExternCPlusPlus or Image is replaced by its image under `s`, everywhere in the tree. -/
def Expr.rename (s : String → String) : Expr → Expr
  | Expr.IntImm t v => Expr.IntImm t v
  | Expr.UIntImm t v => Expr.UIntImm t v
  | Expr.StringImm v => Expr.StringImm v
  | Expr.Cast t value => Expr.Cast t (value.rename s)
  | Expr.Variable t name => Expr.Variable t (s name)
  | Expr.Binary op t a b => Expr.Binary op t (a.rename s) (b.rename s)
  | Expr.Not t a => Expr.Not t (a.rename s)
  | Expr.Select t c tv fv => Expr.Select t (c.rename s) (tv.rename s) (fv.rename s)
  | Expr.Load t name predicate index => Expr.Load t name (predicate.rename s) (index.rename s)
  | Expr.Ramp t base stride lanes => Expr.Ramp t (base.rename s) (stride.rename s) lanes
  | Expr.Broadcast t value lanes => Expr.Broadcast t (value.rename s) lanes
  | Expr.Let t name value body => Expr.Let t name (value.rename s) (body.rename s)
  | Expr.Call t name args call_type =>
      Expr.Call t (if call_type.isExternOrImage then s name else name)
        (Expr.renameList s args) call_type
  | Expr.Shuffle t vectors indices => Expr.Shuffle t (Expr.renameList s vectors) indices
/-- The renaming of a list of trees. -/
def Expr.renameList (s : String → String) : List Expr → List Expr
  | [] => []
  | e :: es => e.rename s :: Expr.renameList s es
end

mutual
/-- The tree `e` with each variable-reference name `n` replaced by `f n`, every operator,
constant, node type and the structure being kept. -/
def Expr.mapVars (f : String → String) : Expr → Expr
  | Expr.IntImm t v => Expr.IntImm t v
  | Expr.UIntImm t v => Expr.UIntImm t v
  | Expr.StringImm v => Expr.StringImm v
  | Expr.Cast t value => Expr.Cast t (value.mapVars f)
  | Expr.Variable t name => Expr.Variable t (f name)
  | Expr.Binary op t a b => Expr.Binary op t (a.mapVars f) (b.mapVars f)
  | Expr.Not t a => Expr.Not t (a.mapVars f)
  | Expr.Select t c tv fv => Expr.Select t (c.mapVars f) (tv.mapVars f) (fv.mapVars f)
  | Expr.Load t name predicate index => Expr.Load t name (predicate.mapVars f) (index.mapVars f)
  | Expr.Ramp t base stride lanes => Expr.Ramp t (base.mapVars f) (stride.mapVars f) lanes
  | Expr.Broadcast t value lanes => Expr.Broadcast t (value.mapVars f) lanes
  | Expr.Let t name value body => Expr.Let t name (value.mapVars f) (body.mapVars f)
  | Expr.Call t name args call_type => Expr.Call t name (Expr.mapVarsList f args) call_type
  | Expr.Shuffle t vectors indices => Expr.Shuffle t (Expr.mapVarsList f vectors) indices
/-- The same replacement on a list of trees. -/
def Expr.mapVarsList (f : String → String) : List Expr → List Expr
  | [] => []
  | e :: es => e.mapVars f :: Expr.mapVarsList f es
end

mutual
/-- The tree in which the nodes that the rewrite replaces are replaced using one fixed
name-to-alias function `al`: a variable reference `v` carries `al v`, a call of kind
Extern, ExternCPlusPlus or Image named `v` becomes a variable reference carrying `al v`,
and every other call node is kept whole. -/
def Expr.replaced (al : String → String) : Expr → Expr
  | Expr.IntImm t v => Expr.IntImm t v
  | Expr.UIntImm t v => Expr.UIntImm t v
  | Expr.StringImm v => Expr.StringImm v
  | Expr.Cast t value => Expr.Cast t (value.replaced al)
  | Expr.Variable t name => Expr.Variable t (al name)
  | Expr.Binary op t a b => Expr.Binary op t (a.replaced al) (b.replaced al)
  | Expr.Not t a => Expr.Not t (a.replaced al)
  | Expr.Select t c tv fv =>
      Expr.Select t (c.replaced al) (tv.replaced al) (fv.replaced al)
  | Expr.Load t name predicate index =>
      Expr.Load t name (predicate.replaced al) (index.replaced al)
  | Expr.Ramp t base stride lanes => Expr.Ramp t (base.replaced al) (stride.replaced al) lanes
  | Expr.Broadcast t value lanes => Expr.Broadcast t (value.replaced al) lanes
  | Expr.Let t name value body => Expr.Let t name (value.replaced al) (body.replaced al)
  | Expr.Call t name args call_type =>
      if call_type.isExternOrImage then Expr.Variable t (al name)
      else Expr.Call t name args call_type
  | Expr.Shuffle t vectors indices => Expr.Shuffle t (Expr.replacedList al vectors) indices
/-- The same replacement on a list of trees. -/
def Expr.replacedList (al : String → String) : List Expr → List Expr
  | [] => []
  | e :: es => e.replaced al :: Expr.replacedList al es
end

/-- The alias map as a total function on names (a name without entry is left as it is). -/
def Remapping.aliasOf (m : Remapping) (n : String) : String :=
  (Remapping.lookup n m).getD n

/-- The values of the alias map: the aliases generated so far. -/
def Remapping.aliases (m : Remapping) : List String := m.map Prod.snd

/-- The three replacement strings that `AnonymizeNames` passes to `remap`. -/
def replacements : List String := ["anon", "define_extern_", "image"]

/-- Of a sequence of `remap (name, replacement)` calls, the calls that request a name for the
first time, in order. -/
def firstRequests : List (String × String) → List (String × String)
  | [] => []
  | c :: cs => c :: (firstRequests cs).filter (fun d => decide (d.1 ≠ c.1))

/-- The entries obtained by numbering a list of first requests from `k` on: the request
`(name, replacement)` at position `i` gives the entry `(name, replacement ++ decimal (k + i))`. -/
def numbered : Nat → List (String × String) → Remapping
  | _, [] => []
  | k, c :: cs => (c.1, c.2 ++ toString k) :: numbered (k + 1) cs

/-- The value of a string of decimal digits. -/
def decimalValue (l : List Char) : Nat := l.foldl (fun a c => 10 * a + (c.toNat - 48)) 0

/-- A sequence of `n` calls of `record_matched_simplifier_rule (rulename)`. -/
def record_rule_times (rulename : String) : Nat → BasicTelemetry → BasicTelemetry
  | 0, s => s
  | n + 1, s => record_rule_times rulename n (BasicTelemetry.record_matched_simplifier_rule rulename s)

/-- The scalar type `Int (32)`, used in sample trees. -/
def Int32 : Type_ := ⟨TypeCode.Int, 32, 1⟩

/-- A sample tree: the intrinsic call `likely (x, f (y))` where `f` is an extern function. -/
def sampleIntrinsicCall : Expr :=
  Expr.Call Int32 "likely"
    [Expr.Variable Int32 "x", Expr.Call Int32 "f" [Expr.Variable Int32 "y"] CallType.Extern]
    CallType.PureIntrinsic

/-- A sample renaming of names: `x` and `y` are exchanged. -/
def swapXY (n : String) : String := if n = "x" then "y" else if n = "y" then "x" else n

/-- A sample session: the loop variable `v` recorded twice, and one failed proof about `v`. -/
def sampleSession : BasicTelemetry :=
  { output_path := ""
    matched_simplifier_rules := []
    non_monotonic_loop_vars :=
      [("v", Expr.Binary BinOp.Add Int32 (Expr.Variable Int32 "v") (Expr.Variable Int32 "w")),
       ("v", Expr.Variable Int32 "w")]
    failed_to_prove_exprs :=
      [(Expr.Binary BinOp.LT Int32 (Expr.Variable Int32 "v") (Expr.IntImm Int32 0),
        Expr.Call Int32 "input" [Expr.Variable Int32 "v"] CallType.Image)] }

/-- The number of distinct names that a sequence of calls has aliased in the namespace of
`replacement` (the names whose first request came with that replacement string). -/
def namespaceCount (replacement : String) (calls : List (String × String)) : Nat :=
  ((firstRequests calls).filter (fun d => decide (d.2 = replacement))).length


/-- The lexicographic order on pairs (first string, second string), each string being
compared as its character sequence. -/
def pair_lex_lt (a b : String × String) : Prop :=
  a.1.data < b.1.data ∨ (a.1 = b.1 ∧ a.2.data < b.2.data)


/-- Embeds `matched_simplifier_rules.find (r)`: the counter stored for the rule `r`, if any. -/
def rule_counter (r : String) : List (String × Int) → Option Int
  | [] => none
  | (k, v) :: rest => if k = r then some v else rule_counter r rest

/-- The largest value of `int64_t`, the type of the rule counters.  The counters are modelled
on the integers; the two agree as long as a counter stays at or below this value. -/
def INT64_MAX : Int := 9223372036854775807

/-- Modelled from the spec: `get_env_variable` of `Util.h` (not part of the sources at hand),
which gives the value of an environment variable and the empty string when it is not defined.
The argument is the state of the variable: `none` when undefined. -/
def get_env_variable (value : Option String) : String := value.getD ""

/-- The destination of the report. -/
inductive Sink
  | stderr
  | file (path : String)
  deriving DecidableEq, Repr

/-- The stream chosen by `finalize` (Telemetry.cpp 105-109): `std::cerr` when `output_path`
is empty, the file opened at `output_path` otherwise. -/
def BasicTelemetry.sink (s : BasicTelemetry) : Sink :=
  if s.output_path.isEmpty then Sink.stderr else Sink.file s.output_path

/-- A sample session: the rule counters a:3, b:5, c:5 and the loop variable `my_secret_var`
recorded once. -/
def sampleRulesSession : BasicTelemetry :=
  { output_path := "report.json"
    matched_simplifier_rules := [("a", 3), ("b", 5), ("c", 5)]
    non_monotonic_loop_vars := [("my_secret_var", Expr.Variable Int32 "my_secret_var")]
    failed_to_prove_exprs := [] }


mutual
/-- The `remap (name, replacement)` calls that the rewrite of a tree makes, in order: one for
each variable reference and each call of kind Extern, ExternCPlusPlus or Image that is
reached (the arguments of calls are not reached). -/
def Expr.visits : Expr → List (String × String)
  | Expr.IntImm _ _ => []
  | Expr.UIntImm _ _ => []
  | Expr.StringImm _ => []
  | Expr.Cast _ value => value.visits
  | Expr.Variable _ name => [(name, "anon")]
  | Expr.Binary _ _ a b => a.visits ++ b.visits
  | Expr.Not _ a => a.visits
  | Expr.Select _ c tv fv => c.visits ++ (tv.visits ++ fv.visits)
  | Expr.Load _ _ predicate index => predicate.visits ++ index.visits
  | Expr.Ramp _ base stride _ => base.visits ++ stride.visits
  | Expr.Broadcast _ value _ => value.visits
  | Expr.Let _ _ value body => value.visits ++ body.visits
  | Expr.Call _ name _ call_type =>
      if call_type = CallType.Extern ∨ call_type = CallType.ExternCPlusPlus then
        [(name, "define_extern_")]
      else if call_type = CallType.Image then [(name, "image")]
      else []
  | Expr.Shuffle _ vectors _ => Expr.visitsList vectors
/-- The `remap` calls made for a list of trees. -/
def Expr.visitsList : List Expr → List (String × String)
  | [] => []
  | e :: es => e.visits ++ Expr.visitsList es
end

/-- The `remap` calls made by the first loop of `anonymize`. -/
def loop_visits : List (String × Expr) → List (String × String)
  | [] => []
  | it :: rest => (it.1, "anon") :: (it.2.visits ++ loop_visits rest)

/-- The `remap` calls made by the second loop of `anonymize`. -/
def failed_visits : List (Expr × Expr) → List (String × String)
  | [] => []
  | it :: rest => it.1.visits ++ (it.2.visits ++ failed_visits rest)

/-- All `remap` calls made by `anonymize` on a session, in order. -/
def session_visits (s : BasicTelemetry) : List (String × String) :=
  loop_visits s.non_monotonic_loop_vars ++ failed_visits s.failed_to_prove_exprs

end Halide

/-! ## Lemmas on the alias map -/

namespace Halide

open AnonymizeNames BasicTelemetry

theorem lookup_append_of_some {k v : String} {m : Remapping} (l : Remapping)
    (h : Remapping.lookup k m = some v) : Remapping.lookup k (m ++ l) = some v := by
  induction m with
  | nil => simp [Remapping.lookup] at h
  | cons p rest ih =>
    obtain ⟨k', v'⟩ := p
    by_cases hk : k' = k
    · simpa [Remapping.lookup, hk] using h
    · simp only [Remapping.lookup, hk, if_false, List.cons_append] at h ⊢
      exact ih h

theorem lookup_append_of_none {k : String} {m : Remapping} (l : Remapping)
    (h : Remapping.lookup k m = none) :
    Remapping.lookup k (m ++ l) = Remapping.lookup k l := by
  induction m with
  | nil => rfl
  | cons p rest ih =>
    obtain ⟨k', v'⟩ := p
    by_cases hk : k' = k
    · simp [Remapping.lookup, hk] at h
    · simp only [Remapping.lookup, hk, if_false, List.cons_append] at h ⊢
      exact ih h

theorem lookup_of_isPrefix {k v : String} {m m2 : Remapping} (hp : m <+: m2)
    (h : Remapping.lookup k m = some v) : Remapping.lookup k m2 = some v := by
  obtain ⟨l, rfl⟩ := hp
  exact lookup_append_of_some l h

theorem lookup_mem {k v : String} {m : Remapping} (h : Remapping.lookup k m = some v) :
    (k, v) ∈ m := by
  induction m with
  | nil => simp [Remapping.lookup] at h
  | cons p rest ih =>
    obtain ⟨k', v'⟩ := p
    by_cases hk : k' = k
    · simp only [Remapping.lookup, hk, if_true, Option.some.injEq] at h
      simp [hk, h]
    · simp only [Remapping.lookup, hk, if_false] at h
      exact List.mem_cons_of_mem _ (ih h)

theorem lookup_eq_none_iff {k : String} {m : Remapping} :
    Remapping.lookup k m = none ↔ k ∉ m.map Prod.fst := by
  induction m with
  | nil => simp [Remapping.lookup]
  | cons p rest ih =>
    obtain ⟨k', v'⟩ := p
    by_cases hk : k' = k
    · simp [Remapping.lookup, hk]
    · simp only [Remapping.lookup, hk, if_false, List.map_cons, List.mem_cons, not_or]
      constructor
      · intro h; exact ⟨fun h2 => hk h2.symm, ih.mp h⟩
      · intro h; exact ih.mpr h.2

/-- What `remap` does to the map: nothing when the name has an entry, one new entry at the end
(the replacement string followed by the size) when it has none. -/
theorem remap_eq (n p : String) (m : Remapping) :
    remap n p m =
      match Remapping.lookup n m with
      | some existing => (existing, m)
      | none => (p ++ toString m.length, m ++ [(n, p ++ toString m.length)]) := by
  simp only [remap, Remapping.insert]

theorem remap_of_some {n v : String} (p : String) {m : Remapping}
    (h : Remapping.lookup n m = some v) : remap n p m = (v, m) := by
  rw [remap_eq, h]

theorem remap_of_none {n : String} (p : String) {m : Remapping}
    (h : Remapping.lookup n m = none) :
    remap n p m = (p ++ toString m.length, m ++ [(n, p ++ toString m.length)]) := by
  rw [remap_eq, h]

theorem remap_isPrefix (n p : String) (m : Remapping) : m <+: (remap n p m).2 := by
  cases h : Remapping.lookup n m with
  | some v => rw [remap_of_some p h]
  | none => rw [remap_of_none p h]; exact List.prefix_append _ _

theorem remap_lookup (n p : String) (m : Remapping) :
    Remapping.lookup n (remap n p m).2 = some (remap n p m).1 := by
  cases h : Remapping.lookup n m with
  | some v => rw [remap_of_some p h]; exact h
  | none =>
    rw [remap_of_none p h]
    simp [lookup_append_of_none _ h, Remapping.lookup]

theorem aliasOf_of_isPrefix (n p : String) (m m2 : Remapping) (h : (remap n p m).2 <+: m2) :
    Remapping.aliasOf m2 n = (remap n p m).1 := by
  simp [Remapping.aliasOf, lookup_of_isPrefix h (remap_lookup n p m)]

/-! ## The rewrite against one fixed alias function -/

theorem visit_Variable_replaced (t : Type_) (name : String) (m : Remapping) :
    m <+: (visit_Variable t name m).2 ∧
      ∀ m2, (visit_Variable t name m).2 <+: m2 →
        (visit_Variable t name m).1 = (Expr.Variable t name).replaced (Remapping.aliasOf m2) := by
  refine ⟨remap_isPrefix _ _ _, fun m2 h => ?_⟩
  simp only [visit_Variable, remap_var_name, Expr.replaced] at h ⊢
  rw [aliasOf_of_isPrefix name "anon" m m2 h]

theorem visit_Call_replaced (t : Type_) (name : String) (args : List Expr) (ct : CallType)
    (m : Remapping) :
    m <+: (visit_Call t name args ct m).2 ∧
      ∀ m2, (visit_Call t name args ct m).2 <+: m2 →
        (visit_Call t name args ct m).1 =
          (Expr.Call t name args ct).replaced (Remapping.aliasOf m2) := by
  cases ct <;>
    simp only [visit_Call, Expr.replaced, CallType.isExternOrImage, reduceCtorEq, or_self,
      or_true, true_or, if_true, if_false, decide_True, decide_False, Bool.or_self, Bool.or_true,
      Bool.true_or, Bool.false_eq_true] <;>
    first
    | exact ⟨List.prefix_refl _, fun _ _ => trivial⟩
    | (refine ⟨remap_isPrefix _ _ _, fun m2 h => ?_⟩
       rw [aliasOf_of_isPrefix _ _ m m2 h])

mutual
/-- The rewrite only appends to the map, and its result is the tree in which the visited
names are replaced by their entries in any later state of the map. -/
theorem mutate_replaced : ∀ (e : Expr) (m : Remapping),
    m <+: (mutate e m).2 ∧
      ∀ m2, (mutate e m).2 <+: m2 → (mutate e m).1 = e.replaced (Remapping.aliasOf m2)
  | Expr.IntImm t v, m => by simp [mutate, Expr.replaced]
  | Expr.UIntImm t v, m => by simp [mutate, Expr.replaced]
  | Expr.StringImm v, m => by simp [mutate, Expr.replaced]
  | Expr.Cast t value, m => by
      have h := mutate_replaced value m
      simp only [mutate, Expr.replaced]
      exact ⟨h.1, fun m2 h2 => by rw [h.2 m2 h2]⟩
  | Expr.Variable t name, m => by
      simpa only [mutate] using visit_Variable_replaced t name m
  | Expr.Binary op t a b, m => by
      have ha := mutate_replaced a m
      have hb := mutate_replaced b (mutate a m).2
      simp only [mutate, Expr.replaced]
      exact ⟨ha.1.trans hb.1, fun m2 h2 => by rw [ha.2 m2 (hb.1.trans h2), hb.2 m2 h2]⟩
  | Expr.Not t a, m => by
      have h := mutate_replaced a m
      simp only [mutate, Expr.replaced]
      exact ⟨h.1, fun m2 h2 => by rw [h.2 m2 h2]⟩
  | Expr.Select t c tv fv, m => by
      have hc := mutate_replaced c m
      have ht := mutate_replaced tv (mutate c m).2
      have hf := mutate_replaced fv (mutate tv (mutate c m).2).2
      simp only [mutate, Expr.replaced]
      exact ⟨(hc.1.trans ht.1).trans hf.1, fun m2 h2 => by
        rw [hc.2 m2 ((ht.1.trans hf.1).trans h2), ht.2 m2 (hf.1.trans h2), hf.2 m2 h2]⟩
  | Expr.Load t name predicate index, m => by
      have ha := mutate_replaced predicate m
      have hb := mutate_replaced index (mutate predicate m).2
      simp only [mutate, Expr.replaced]
      exact ⟨ha.1.trans hb.1, fun m2 h2 => by rw [ha.2 m2 (hb.1.trans h2), hb.2 m2 h2]⟩
  | Expr.Ramp t base stride lanes, m => by
      have ha := mutate_replaced base m
      have hb := mutate_replaced stride (mutate base m).2
      simp only [mutate, Expr.replaced]
      exact ⟨ha.1.trans hb.1, fun m2 h2 => by rw [ha.2 m2 (hb.1.trans h2), hb.2 m2 h2]⟩
  | Expr.Broadcast t value lanes, m => by
      have h := mutate_replaced value m
      simp only [mutate, Expr.replaced]
      exact ⟨h.1, fun m2 h2 => by rw [h.2 m2 h2]⟩
  | Expr.Let t name value body, m => by
      have ha := mutate_replaced value m
      have hb := mutate_replaced body (mutate value m).2
      simp only [mutate, Expr.replaced]
      exact ⟨ha.1.trans hb.1, fun m2 h2 => by rw [ha.2 m2 (hb.1.trans h2), hb.2 m2 h2]⟩
  | Expr.Call t name args ct, m => by
      simpa only [mutate] using visit_Call_replaced t name args ct m
  | Expr.Shuffle t vectors indices, m => by
      have h := mutateList_replaced vectors m
      simp only [mutate, Expr.replaced]
      exact ⟨h.1, fun m2 h2 => by rw [h.2 m2 h2]⟩
/-- The list version of `mutate_replaced`. -/
theorem mutateList_replaced : ∀ (es : List Expr) (m : Remapping),
    m <+: (mutateList es m).2 ∧
      ∀ m2, (mutateList es m).2 <+: m2 →
        (mutateList es m).1 = Expr.replacedList (Remapping.aliasOf m2) es
  | [], m => by simp [mutateList, Expr.replacedList]
  | e :: es, m => by
      have ha := mutate_replaced e m
      have hb := mutateList_replaced es (mutate e m).2
      simp only [mutateList, Expr.replacedList]
      exact ⟨ha.1.trans hb.1, fun m2 h2 => by rw [ha.2 m2 (hb.1.trans h2), hb.2 m2 h2]⟩
end

/-! ## Decimal rendering -/

theorem digitChar_isDigit (k : Nat) (h : k < 10) :
    (Nat.digitChar k).isDigit = true ∧ (Nat.digitChar k).toNat - 48 = k := by
  interval_cases k <;> decide

theorem toDigitsCore_spec : ∀ (fuel n : Nat) (ds : List Char), n < fuel →
    ∃ l, Nat.toDigitsCore 10 fuel n ds = l ++ ds ∧ (∀ c ∈ l, c.isDigit = true) ∧
      decimalValue l = n := by
  intro fuel
  induction fuel with
  | zero => intro n ds h; omega
  | succ fuel ih =>
    intro n ds h
    have hd := digitChar_isDigit (n % 10) (Nat.mod_lt _ (by decide))
    by_cases h0 : n / 10 = 0
    · refine ⟨[Nat.digitChar (n % 10)], ?_, ?_, ?_⟩
      · simp [Nat.toDigitsCore, h0]
      · simpa using hd.1
      · simp only [decimalValue, List.foldl_cons, List.foldl_nil, hd.2]
        omega
    · obtain ⟨l, h1, h2, h3⟩ := ih (n / 10) (Nat.digitChar (n % 10) :: ds) (by omega)
      refine ⟨l ++ [Nat.digitChar (n % 10)], ?_, ?_, ?_⟩
      · simp [Nat.toDigitsCore, h0, h1]
      · intro c hc
        rcases List.mem_append.mp hc with hc | hc
        · exact h2 c hc
        · simp only [List.mem_singleton] at hc; rw [hc]; exact hd.1
      · simp only [decimalValue] at h3 ⊢
        simp only [List.foldl_append, List.foldl_cons, List.foldl_nil, h3, hd.2]
        omega

/-- The decimal rendering of a number consists of digits and reads back as the number. -/
theorem toString_data (n : Nat) :
    (∀ c ∈ (toString n).data, c.isDigit = true) ∧ decimalValue (toString n).data = n := by
  obtain ⟨l, h1, h2, h3⟩ := toDigitsCore_spec (n + 1) n [] (by omega)
  have : (toString n).data = l := by
    show (Nat.repr n).data = l
    simp [Nat.repr, Nat.toDigits, h1, List.asString]
  rw [this]; exact ⟨h2, h3⟩

theorem toString_nat_injective {i j : Nat} (h : toString i = toString j) : i = j := by
  have hi := (toString_data i).2
  have hj := (toString_data j).2
  rw [h] at hi; omega

/-- Two aliases built from digit-free replacement strings agree only if their numbers do. -/
theorem alias_number_eq {p q : String} (hp : ∀ c ∈ p.data, c.isDigit = false)
    (hq : ∀ c ∈ q.data, c.isDigit = false) {i j : Nat}
    (h : p ++ toString i = q ++ toString j) : i = j := by
  have h1 : (p ++ toString i).data.filter Char.isDigit = (toString i).data := by
    rw [String.data_append, List.filter_append, List.filter_eq_nil_iff.mpr, List.nil_append,
      List.filter_eq_self.mpr (toString_data i).1]
    intro c hc; simp [hp c hc]
  have h2 : (q ++ toString j).data.filter Char.isDigit = (toString j).data := by
    rw [String.data_append, List.filter_append, List.filter_eq_nil_iff.mpr, List.nil_append,
      List.filter_eq_self.mpr (toString_data j).1]
    intro c hc; simp [hq c hc]
  rw [h, h2] at h1
  exact (toString_nat_injective (String.ext h1)).symm

theorem replacements_digit_free :
    ∀ p ∈ replacements, ∀ c ∈ String.data p, c.isDigit = false := by decide

/-! ## Sequences of `remap` calls -/

theorem firstRequests_filter (x : String) (l : List (String × String)) :
    firstRequests (l.filter (fun d => decide (d.1 ≠ x))) =
      (firstRequests l).filter (fun d => decide (d.1 ≠ x)) := by
  induction l with
  | nil => rfl
  | cons c l ih =>
    by_cases hc : c.1 = x
    · simp only [List.filter_cons, hc, ne_eq, not_true_eq_false, decide_False,
        Bool.false_eq_true, if_false, firstRequests, ih, List.filter_filter, Bool.and_self]
    · simp only [List.filter_cons, hc, ne_eq, not_false_eq_true, decide_True, if_true,
        firstRequests, ih, List.filter_filter, Bool.and_comm]

theorem numbered_length (k : Nat) (l : List (String × String)) :
    (numbered k l).length = l.length := by
  induction l generalizing k with
  | nil => rfl
  | cons c l ih => simp [numbered, ih]

/-- The map after a sequence of `remap` calls: the old entries followed by one entry for each
first request of a name that had no entry, numbered from the old size on. -/
theorem remapAll_eq (cs : List (String × String)) (m : Remapping) :
    remapAll cs m =
      m ++ numbered m.length
        (firstRequests (cs.filter (fun c => (Remapping.lookup c.1 m).isNone))) := by
  induction cs generalizing m with
  | nil => simp [remapAll, firstRequests, numbered]
  | cons c cs ih =>
    cases h : Remapping.lookup c.1 m with
    | some v =>
      simp only [remapAll, remap_of_some c.2 h, ih, List.filter_cons, h, Option.isNone_some,
        Bool.false_eq_true, if_false]
    | none =>
      have hf : cs.filter (fun d =>
            (Remapping.lookup d.1 (m ++ [(c.1, c.2 ++ toString m.length)])).isNone) =
          (cs.filter (fun d => (Remapping.lookup d.1 m).isNone)).filter
            (fun d => decide (d.1 ≠ c.1)) := by
        rw [List.filter_filter]
        apply List.filter_congr
        intro d _
        cases hd : Remapping.lookup d.1 m with
        | some w => simp [lookup_append_of_some _ hd]
        | none =>
          by_cases hdc : c.1 = d.1
          · simp [lookup_append_of_none _ hd, Remapping.lookup, hdc]
          · have hdc2 : ¬ d.1 = c.1 := fun h2 => hdc h2.symm
            simp [lookup_append_of_none _ hd, Remapping.lookup, hdc, hdc2]
      simp only [remapAll, remap_of_none c.2 h, ih, hf, firstRequests_filter, List.filter_cons,
        h, Option.isNone_none, if_true, firstRequests, numbered, List.length_append,
        List.length_singleton, List.append_assoc, List.singleton_append]

theorem remapAll_fresh (cs : List (String × String)) :
    remapAll cs [] = numbered 0 (firstRequests cs) := by
  rw [remapAll_eq]
  simp [Remapping.lookup]

theorem mem_of_mem_firstRequests {d : String × String} {cs : List (String × String)}
    (h : d ∈ firstRequests cs) : d ∈ cs := by
  induction cs with
  | nil => simp [firstRequests] at h
  | cons c cs ih =>
    simp only [firstRequests, List.mem_cons, List.mem_filter] at h
    rcases h with h | h
    · exact h ▸ List.mem_cons_self _ _
    · exact List.mem_cons_of_mem _ (ih h.1)

theorem mem_firstRequests_fst {n : String} {cs : List (String × String)} :
    n ∈ (firstRequests cs).map Prod.fst ↔ n ∈ cs.map Prod.fst := by
  induction cs with
  | nil => simp [firstRequests]
  | cons c cs ih =>
    simp only [List.mem_map, firstRequests, List.mem_cons, List.mem_filter, ne_eq,
      decide_not, Bool.not_eq_eq_eq_not, Bool.not_true, decide_eq_false_iff_not] at ih ⊢
    constructor
    · rintro ⟨d, hd | hd, rfl⟩
      · exact ⟨d, Or.inl hd, rfl⟩
      · obtain ⟨e, he, he2⟩ := ih.mp ⟨d, hd.1, rfl⟩
        exact ⟨e, Or.inr he, he2⟩
    · rintro ⟨d, hd | hd, rfl⟩
      · exact ⟨d, Or.inl hd, rfl⟩
      · by_cases hdc : d.1 = c.1
        · exact ⟨c, Or.inl rfl, hdc.symm⟩
        · obtain ⟨e, he, he2⟩ := ih.mpr ⟨d, hd, rfl⟩
          exact ⟨e, Or.inr ⟨he, by rw [he2]; exact hdc⟩, he2⟩

theorem firstRequests_nodup (cs : List (String × String)) :
    ((firstRequests cs).map Prod.fst).Nodup := by
  induction cs with
  | nil => simp [firstRequests]
  | cons c cs ih =>
    simp only [firstRequests, List.map_cons, List.nodup_cons, List.mem_map, List.mem_filter,
      ne_eq, decide_not, Bool.not_eq_eq_eq_not, Bool.not_true, decide_eq_false_iff_not,
      not_exists, not_and, and_imp]
    refine ⟨fun d _ hd hd2 => hd hd2, ?_⟩
    exact (List.Nodup.sublist ((List.filter_sublist _).map Prod.fst) ih)

/-- The number of first requests is the number of distinct names requested. -/
theorem firstRequests_length (cs : List (String × String)) :
    (firstRequests cs).length = (cs.map Prod.fst).toFinset.card := by
  have h : ((firstRequests cs).map Prod.fst).toFinset = (cs.map Prod.fst).toFinset := by
    ext n
    simp only [List.mem_toFinset]
    exact mem_firstRequests_fst
  rw [← h, List.toFinset_card_of_nodup (firstRequests_nodup cs), List.length_map]

theorem numbered_fst (k : Nat) (l : List (String × String)) :
    (numbered k l).map Prod.fst = l.map Prod.fst := by
  induction l generalizing k with
  | nil => rfl
  | cons c l ih => simp [numbered, ih]

theorem mem_numbered {a x : String} {k : Nat} {l : List (String × String)}
    (h : (a, x) ∈ numbered k l) :
    ∃ i p, l[i]? = some (a, p) ∧ x = p ++ toString (k + i) := by
  induction l generalizing k with
  | nil => simp [numbered] at h
  | cons c l ih =>
    simp only [numbered, List.mem_cons, Prod.mk.injEq] at h
    rcases h with ⟨h1, h2⟩ | h
    · exact ⟨0, c.2, by simp [h1], by simpa using h2⟩
    · obtain ⟨i, p, hi, hx⟩ := ih h
      exact ⟨i + 1, p, by simpa using hi, by rw [hx]; congr 2; omega⟩

/-- A name that no call of the sequence requested has no entry afterwards. -/
theorem lookup_remapAll_of_not_mem {n : String} {cs : List (String × String)}
    (h : n ∉ cs.map Prod.fst) : Remapping.lookup n (remapAll cs []) = none := by
  rw [lookup_eq_none_iff, remapAll_fresh, numbered_fst]
  exact fun h2 => h (mem_firstRequests_fst.mp h2)

/-! ## The two loops of `anonymize` -/

theorem anonymize_loop_vars_replaced : ∀ (l : List (String × Expr)) (m : Remapping),
    m <+: (anonymize_loop_vars l m).2 ∧
      ∀ m2, (anonymize_loop_vars l m).2 <+: m2 →
        (anonymize_loop_vars l m).1 =
            l.map (fun it => (Remapping.aliasOf m2 it.1, it.2.replaced (Remapping.aliasOf m2))) ∧
          ∀ it ∈ l, ∃ a, Remapping.lookup it.1 m2 = some a
  | [], m => by simp [anonymize_loop_vars]
  | it :: rest, m => by
      have h1 := remap_isPrefix it.1 "anon" m
      have h2 := mutate_replaced it.2 (remap it.1 "anon" m).2
      have h3 := anonymize_loop_vars_replaced rest (mutate it.2 (remap it.1 "anon" m).2).2
      simp only [anonymize_loop_vars, remap_var_name, List.map_cons, List.mem_cons]
      refine ⟨(h1.trans h2.1).trans h3.1, fun m2 hm => ⟨?_, ?_⟩⟩
      · rw [aliasOf_of_isPrefix it.1 "anon" m m2 ((h2.1.trans h3.1).trans hm),
          h2.2 m2 (h3.1.trans hm), (h3.2 m2 hm).1]
      · rintro x (rfl | hx)
        · exact ⟨_, lookup_of_isPrefix ((h2.1.trans h3.1).trans hm) (remap_lookup _ _ _)⟩
        · exact (h3.2 m2 hm).2 x hx

theorem anonymize_failed_replaced : ∀ (l : List (Expr × Expr)) (m : Remapping),
    m <+: (anonymize_failed l m).2 ∧
      ∀ m2, (anonymize_failed l m).2 <+: m2 →
        (anonymize_failed l m).1 =
          l.map (fun it =>
            (it.1.replaced (Remapping.aliasOf m2), it.2.replaced (Remapping.aliasOf m2)))
  | [], m => by simp [anonymize_failed]
  | it :: rest, m => by
      have h1 := mutate_replaced it.1 m
      have h2 := mutate_replaced it.2 (mutate it.1 m).2
      have h3 := anonymize_failed_replaced rest (mutate it.2 (mutate it.1 m).2).2
      simp only [anonymize_failed, List.map_cons]
      refine ⟨(h1.1.trans h2.1).trans h3.1, fun m2 hm => ?_⟩
      rw [h1.2 m2 ((h2.1.trans h3.1).trans hm), h2.2 m2 (h3.1.trans hm), h3.2 m2 hm]

/-! ## Trees without call nodes -/

mutual
theorem replaced_eq_mapVars (f : String → String) : ∀ (e : Expr), e.callKinds = [] →
    e.replaced f = e.mapVars f
  | Expr.IntImm _ _, _ => rfl
  | Expr.UIntImm _ _, _ => rfl
  | Expr.StringImm _, _ => rfl
  | Expr.Cast t value, h => by
      simp only [Expr.callKinds] at h
      simp only [Expr.replaced, Expr.mapVars, replaced_eq_mapVars f value h]
  | Expr.Variable _ _, _ => rfl
  | Expr.Binary op t a b, h => by
      simp only [Expr.callKinds, List.append_eq_nil] at h
      simp only [Expr.replaced, Expr.mapVars, replaced_eq_mapVars f a h.1,
        replaced_eq_mapVars f b h.2]
  | Expr.Not t a, h => by
      simp only [Expr.callKinds] at h
      simp only [Expr.replaced, Expr.mapVars, replaced_eq_mapVars f a h]
  | Expr.Select t c tv fv, h => by
      simp only [Expr.callKinds, List.append_eq_nil] at h
      simp only [Expr.replaced, Expr.mapVars, replaced_eq_mapVars f c h.1.1,
        replaced_eq_mapVars f tv h.1.2, replaced_eq_mapVars f fv h.2]
  | Expr.Load t name predicate index, h => by
      simp only [Expr.callKinds, List.append_eq_nil] at h
      simp only [Expr.replaced, Expr.mapVars, replaced_eq_mapVars f predicate h.1,
        replaced_eq_mapVars f index h.2]
  | Expr.Ramp t base stride lanes, h => by
      simp only [Expr.callKinds, List.append_eq_nil] at h
      simp only [Expr.replaced, Expr.mapVars, replaced_eq_mapVars f base h.1,
        replaced_eq_mapVars f stride h.2]
  | Expr.Broadcast t value lanes, h => by
      simp only [Expr.callKinds] at h
      simp only [Expr.replaced, Expr.mapVars, replaced_eq_mapVars f value h]
  | Expr.Let t name value body, h => by
      simp only [Expr.callKinds, List.append_eq_nil] at h
      simp only [Expr.replaced, Expr.mapVars, replaced_eq_mapVars f value h.1,
        replaced_eq_mapVars f body h.2]
  | Expr.Call t name args ct, h => by simp [Expr.callKinds] at h
  | Expr.Shuffle t vectors indices, h => by
      simp only [Expr.callKinds] at h
      simp only [Expr.replaced, Expr.mapVars, replacedList_eq_mapVarsList f vectors h]
theorem replacedList_eq_mapVarsList (f : String → String) : ∀ (es : List Expr),
    Expr.callKindsList es = [] → Expr.replacedList f es = Expr.mapVarsList f es
  | [], _ => rfl
  | e :: es, h => by
      simp only [Expr.callKindsList, List.append_eq_nil] at h
      simp only [Expr.replacedList, Expr.mapVarsList, replaced_eq_mapVars f e h.1,
        replacedList_eq_mapVarsList f es h.2]
end

mutual
theorem mutate_variables_defined : ∀ (e : Expr) (m : Remapping), e.callKinds = [] →
    ∀ m2, (mutate e m).2 <+: m2 → ∀ n ∈ e.variables, ∃ a, Remapping.lookup n m2 = some a
  | Expr.IntImm _ _, _, _ => by simp [Expr.variables]
  | Expr.UIntImm _ _, _, _ => by simp [Expr.variables]
  | Expr.StringImm _, _, _ => by simp [Expr.variables]
  | Expr.Cast t value, m, h => by
      simp only [Expr.callKinds] at h
      simpa only [mutate, Expr.variables] using mutate_variables_defined value m h
  | Expr.Variable t name, m, _ => by
      intro m2 hm n hn
      simp only [Expr.variables, List.mem_singleton] at hn
      subst hn
      simp only [mutate, visit_Variable, remap_var_name] at hm
      exact ⟨_, lookup_of_isPrefix hm (remap_lookup _ _ _)⟩
  | Expr.Binary op t a b, m, h => by
      simp only [Expr.callKinds, List.append_eq_nil] at h
      intro m2 hm n hn
      simp only [mutate] at hm
      simp only [Expr.variables, List.mem_append] at hn
      rcases hn with hn | hn
      · exact mutate_variables_defined a m h.1 m2
          ((mutate_replaced b (mutate a m).2).1.trans hm) n hn
      · exact mutate_variables_defined b (mutate a m).2 h.2 m2 hm n hn
  | Expr.Not t a, m, h => by
      simp only [Expr.callKinds] at h
      simpa only [mutate, Expr.variables] using mutate_variables_defined a m h
  | Expr.Select t c tv fv, m, h => by
      simp only [Expr.callKinds, List.append_eq_nil] at h
      intro m2 hm n hn
      simp only [mutate] at hm
      simp only [Expr.variables, List.mem_append] at hn
      have h3 := (mutate_replaced fv (mutate tv (mutate c m).2).2).1
      have h2 := (mutate_replaced tv (mutate c m).2).1
      rcases hn with (hn | hn) | hn
      · exact mutate_variables_defined c m h.1.1 m2 ((h2.trans h3).trans hm) n hn
      · exact mutate_variables_defined tv (mutate c m).2 h.1.2 m2 (h3.trans hm) n hn
      · exact mutate_variables_defined fv (mutate tv (mutate c m).2).2 h.2 m2 hm n hn
  | Expr.Load t name predicate index, m, h => by
      simp only [Expr.callKinds, List.append_eq_nil] at h
      intro m2 hm n hn
      simp only [mutate] at hm
      simp only [Expr.variables, List.mem_append] at hn
      rcases hn with hn | hn
      · exact mutate_variables_defined predicate m h.1 m2
          ((mutate_replaced index (mutate predicate m).2).1.trans hm) n hn
      · exact mutate_variables_defined index (mutate predicate m).2 h.2 m2 hm n hn
  | Expr.Ramp t base stride lanes, m, h => by
      simp only [Expr.callKinds, List.append_eq_nil] at h
      intro m2 hm n hn
      simp only [mutate] at hm
      simp only [Expr.variables, List.mem_append] at hn
      rcases hn with hn | hn
      · exact mutate_variables_defined base m h.1 m2
          ((mutate_replaced stride (mutate base m).2).1.trans hm) n hn
      · exact mutate_variables_defined stride (mutate base m).2 h.2 m2 hm n hn
  | Expr.Broadcast t value lanes, m, h => by
      simp only [Expr.callKinds] at h
      simpa only [mutate, Expr.variables] using mutate_variables_defined value m h
  | Expr.Let t name value body, m, h => by
      simp only [Expr.callKinds, List.append_eq_nil] at h
      intro m2 hm n hn
      simp only [mutate] at hm
      simp only [Expr.variables, List.mem_append] at hn
      rcases hn with hn | hn
      · exact mutate_variables_defined value m h.1 m2
          ((mutate_replaced body (mutate value m).2).1.trans hm) n hn
      · exact mutate_variables_defined body (mutate value m).2 h.2 m2 hm n hn
  | Expr.Call t name args ct, m, h => by simp [Expr.callKinds] at h
  | Expr.Shuffle t vectors indices, m, h => by
      simp only [Expr.callKinds] at h
      simpa only [mutate, Expr.variables] using mutateList_variables_defined vectors m h
theorem mutateList_variables_defined : ∀ (es : List Expr) (m : Remapping),
    Expr.callKindsList es = [] →
    ∀ m2, (mutateList es m).2 <+: m2 →
      ∀ n ∈ Expr.variablesList es, ∃ a, Remapping.lookup n m2 = some a
  | [], _, _ => by simp [Expr.variablesList]
  | e :: es, m, h => by
      simp only [Expr.callKindsList, List.append_eq_nil] at h
      intro m2 hm n hn
      simp only [mutateList] at hm
      simp only [Expr.variablesList, List.mem_append] at hn
      rcases hn with hn | hn
      · exact mutate_variables_defined e m h.1 m2
          ((mutateList_replaced es (mutate e m).2).1.trans hm) n hn
      · exact mutateList_variables_defined es (mutate e m).2 h.2 m2 hm n hn
end

theorem swapXY_injective : Function.Injective swapXY := by
  have h : Function.Involutive swapXY := by
    intro n
    unfold swapXY
    by_cases hx : n = "x"
    · simp [hx]
    · by_cases hy : n = "y"
      · simp [hy]
      · simp [hx, hy]
  exact h.injective

/-! ## The claims -/

/-- C1 (evaluation at the failing input).  Scrubbing is not complete on `likely (x, f (y))`:
the call is of kind PureIntrinsic, so `visit` hands the node back as it is; the result still
holds the variable reference `x`, the alias map is empty (so `x` is no alias), and the call of
kind Extern to `f` is still there. -/
theorem C1_intrinsic_call_keeps_names :
    mutate sampleIntrinsicCall [] = (sampleIntrinsicCall, []) ∧
      "x" ∈ (mutate sampleIntrinsicCall []).1.variables ∧
      "x" ∉ Remapping.aliases (mutate sampleIntrinsicCall []).2 ∧
      CallType.Extern ∈ (mutate sampleIntrinsicCall []).1.callKinds :=
  ⟨rfl, by decide, by decide, by decide⟩

/-- C2.  The alias map is injective: after any sequence of `remap` calls on a new instance,
each with one of the replacement strings "anon", "define_extern_", "image", two distinct names
that have an entry have distinct aliases. -/
theorem C2_alias_map_injective (calls : List (String × String))
    (hp : ∀ c ∈ calls, c.2 ∈ replacements) (a b x y : String)
    (ha : Remapping.lookup a (remapAll calls []) = some x)
    (hb : Remapping.lookup b (remapAll calls []) = some y) (hab : a ≠ b) : x ≠ y := by
  rw [remapAll_fresh] at ha hb
  obtain ⟨i, p, hi, hx⟩ := mem_numbered (lookup_mem ha)
  obtain ⟨j, q, hj, hy⟩ := mem_numbered (lookup_mem hb)
  intro hxy
  have hpm : p ∈ replacements :=
    hp (a, p) (mem_of_mem_firstRequests (List.getElem?_mem hi))
  have hqm : q ∈ replacements :=
    hp (b, q) (mem_of_mem_firstRequests (List.getElem?_mem hj))
  have hij : 0 + i = 0 + j :=
    alias_number_eq (replacements_digit_free p hpm) (replacements_digit_free q hqm)
      (by rw [← hx, ← hy, hxy])
  have hij2 : i = j := by omega
  subst hij2
  rw [hi] at hj
  simp only [Option.some.injEq, Prod.mk.injEq] at hj
  exact hab hj.1

/-- C2, at the calls remap (x, anon), remap (y, image), remap (x, image). -/
theorem C2_alias_map_injective_witness :
    (∀ c ∈ [("x", "anon"), ("y", "image"), ("x", "image")], c.2 ∈ replacements) ∧
      Remapping.lookup "x" (remapAll [("x", "anon"), ("y", "image"), ("x", "image")] []) =
        some "anon0" ∧
      Remapping.lookup "y" (remapAll [("x", "anon"), ("y", "image"), ("x", "image")] []) =
        some "image1" ∧
      "anon0" ≠ "image1" :=
  ⟨by decide, by decide, by decide,
    C2_alias_map_injective [("x", "anon"), ("y", "image"), ("x", "image")] (by decide)
      "x" "y" "anon0" "image1" (by decide) (by decide) (by decide)⟩

/-- C3.  Cross-record consistency: when anonymization is enabled, the map `m` held by the
anonymizer at the end of `anonymize ()` is a single name-to-alias map such that every loop
observation recorded with name `v` carries `m (v)` (and `v` has an entry in `m`), and every
retained expression, of either sequence, is the recorded one with each replaced node named
`v` carrying `m (v)`; two loop observations recorded with the same name get the same alias. -/
theorem C3_cross_record_consistency (no_anon : String) (s : BasicTelemetry)
    (h : no_anon ≠ "1") :
    (anonymize no_anon s).non_monotonic_loop_vars =
        s.non_monotonic_loop_vars.map (fun it =>
          (Remapping.aliasOf (anonymizer_map s) it.1,
            it.2.replaced (Remapping.aliasOf (anonymizer_map s)))) ∧
      (anonymize no_anon s).failed_to_prove_exprs =
        s.failed_to_prove_exprs.map (fun it =>
          (it.1.replaced (Remapping.aliasOf (anonymizer_map s)),
            it.2.replaced (Remapping.aliasOf (anonymizer_map s)))) ∧
      (∀ it ∈ s.non_monotonic_loop_vars,
        ∃ a, Remapping.lookup it.1 (anonymizer_map s) = some a) ∧
      ∀ i j : Nat,
        (s.non_monotonic_loop_vars[i]?).map Prod.fst =
            (s.non_monotonic_loop_vars[j]?).map Prod.fst →
          ((anonymize no_anon s).non_monotonic_loop_vars[i]?).map Prod.fst =
            ((anonymize no_anon s).non_monotonic_loop_vars[j]?).map Prod.fst := by
  have hl := anonymize_loop_vars_replaced s.non_monotonic_loop_vars []
  have hf := anonymize_failed_replaced s.failed_to_prove_exprs
    (anonymize_loop_vars s.non_monotonic_loop_vars []).2
  have h1 := hl.2 (anonymizer_map s) hf.1
  have h2 := hf.2 (anonymizer_map s) (List.prefix_refl _)
  have e1 : (anonymize no_anon s).non_monotonic_loop_vars =
      (anonymize_loop_vars s.non_monotonic_loop_vars []).1 := by
    simp only [anonymize, if_neg h]
  have e2 : (anonymize no_anon s).failed_to_prove_exprs =
      (anonymize_failed s.failed_to_prove_exprs
        (anonymize_loop_vars s.non_monotonic_loop_vars []).2).1 := by
    simp only [anonymize, if_neg h]
  refine ⟨e1.trans h1.1, e2.trans h2, h1.2, fun i j hij => ?_⟩
  rw [e1, h1.1]
  simp only [List.getElem?_map, Option.map_map] at hij ⊢
  cases hi : s.non_monotonic_loop_vars[i]? <;> cases hj : s.non_monotonic_loop_vars[j]? <;>
    simp_all

/-- C3, at the sample session (loop variable `v` recorded twice) with the opt-out unset. -/
theorem C3_cross_record_consistency_witness :
    "" ≠ "1" ∧
      (anonymize "" sampleSession).non_monotonic_loop_vars =
        sampleSession.non_monotonic_loop_vars.map (fun it =>
          (Remapping.aliasOf (anonymizer_map sampleSession) it.1,
            it.2.replaced (Remapping.aliasOf (anonymizer_map sampleSession)))) ∧
      (anonymize "" sampleSession).non_monotonic_loop_vars.map Prod.fst = ["anon0", "anon0"] :=
  ⟨by decide, (C3_cross_record_consistency "" sampleSession (by decide)).1, rfl⟩

/-- C4 (evaluation at the failing input).  Recording rule `a` 3 times and rules `b` and `c`
5 times each gives the counters a:3, b:5, c:5, and the rule section written by `finalize`
is then b:5, a:3: the entry of `c`, whose count equals that of `b`, is not written. -/
theorem C4_equal_counts_collapse (print : Expr → String) (no_anon : String) :
    (record_rule_times "c" 5 (record_rule_times "b" 5
        (record_rule_times "a" 3 ⟨"", [], [], []⟩))).matched_simplifier_rules =
        [("a", 3), ("b", 5), ("c", 5)] ∧
      (finalize print no_anon ⟨"", [("a", 3), ("b", 5), ("c", 5)], [], []⟩).2.matched_simplifier_rules
        = [("b", 5), ("a", 3)] := by
  refine ⟨by decide, ?_⟩
  have h : (anonymize no_anon ⟨"", [("a", 3), ("b", 5), ("c", 5)], [], []⟩).matched_simplifier_rules
      = [("a", 3), ("b", 5), ("c", 5)] := by
    unfold anonymize
    split <;> rfl
  simp only [finalize, h]
  decide

/-- C5 (evaluation at the failing input).  Exchanging `x` and `y` is an injective renaming,
yet rewriting `likely (x, f (y))` and rewriting its renamed copy `likely (y, f (x))`, each with
a new instance, give different trees: both come back as they went in. -/
theorem C5_renaming_changes_result :
    Function.Injective swapXY ∧
      (mutate (sampleIntrinsicCall.rename swapXY) []).1 = sampleIntrinsicCall.rename swapXY ∧
      (mutate sampleIntrinsicCall []).1 = sampleIntrinsicCall ∧
      (mutate (sampleIntrinsicCall.rename swapXY) []).1 ≠ (mutate sampleIntrinsicCall []).1 :=
  ⟨swapXY_injective, rfl, rfl, fun h => absurd (congrArg Expr.variables h) (by decide)⟩

/-- C6 (counterexample).  On a new instance, after the variable `x` has been rewritten (to
`anon0`), rewriting the Image call named `x` does not give `image0`. -/
theorem C6_same_name_counterexample :
    ¬ ((mutate (Expr.Variable Int32 "x") []).1 = Expr.Variable Int32 "anon0" ∧
        (mutate (Expr.Call Int32 "x" [] CallType.Image)
          (mutate (Expr.Variable Int32 "x") []).2).1 = Expr.Variable Int32 "image0") :=
  fun h => absurd (congrArg Expr.variables h.2) (by decide)

/-- C6 (amended).  On a new instance, rewriting the variable `x` gives the alias `anon0`, and
rewriting an Image call with the same name `x` afterwards gives the same alias `anon0`: the
map is keyed by the name alone and still has the single entry (x, anon0). -/
theorem C6_same_name_same_alias (x : String) (t t2 : Type_) (args : List Expr) :
    mutate (Expr.Variable t x) [] = (Expr.Variable t "anon0", [(x, "anon0")]) ∧
      mutate (Expr.Call t2 x args CallType.Image) (mutate (Expr.Variable t x) []).2 =
        (Expr.Variable t2 "anon0", [(x, "anon0")]) := by
  have h1 : mutate (Expr.Variable t x) [] = (Expr.Variable t "anon0", [(x, "anon0")]) := by
    simp only [mutate, visit_Variable, remap_var_name,
      remap_of_none "anon" (show Remapping.lookup x [] = none from rfl)]
    rfl
  refine ⟨h1, ?_⟩
  rw [h1]
  have h2 : Remapping.lookup x [(x, "anon0")] = some "anon0" := by simp [Remapping.lookup]
  simp [mutate, visit_Call, remap_of_some "image" h2]

/-- C7 (counterexample).  After aliasing `a` as a generic variable, no name has been aliased
in the image namespace, yet aliasing `b` with the replacement string "image" gives `image1`,
not "image" followed by 0. -/
theorem C7_namespace_counter_counterexample :
    namespaceCount "image" [("a", "anon")] = 0 ∧
      (remap "b" "image" (remapAll [("a", "anon")] [])).1 = "image1" ∧
      (remap "b" "image" (remapAll [("a", "anon")] [])).1 ≠
        "image" ++ toString (namespaceCount "image" [("a", "anon")]) := by
  decide

/-- C7 (amended).  One counter for all namespaces: after any sequence of `remap` calls on a
new instance, aliasing a name not requested before gives the replacement string followed by
the number of distinct names aliased so far, whatever their namespaces, and adds that entry
to the map. -/
theorem C7_single_counter (calls : List (String × String)) (name replacement : String)
    (h : name ∉ calls.map Prod.fst) :
    remap name replacement (remapAll calls []) =
        (replacement ++ toString (calls.map Prod.fst).toFinset.card,
          remapAll calls [] ++
            [(name, replacement ++ toString (calls.map Prod.fst).toFinset.card)]) ∧
      (calls.map Prod.fst).toFinset.card = (firstRequests calls).length := by
  have hl : (remapAll calls []).length = (calls.map Prod.fst).toFinset.card := by
    rw [remapAll_fresh, numbered_length, firstRequests_length]
  refine ⟨?_, (firstRequests_length calls).symm⟩
  rw [remap_of_none replacement (lookup_remapAll_of_not_mem h), hl]

/-- C7 (amended), at the calls remap (a, anon), remap (c, define_extern_), remap (a, image)
followed by the new name `b` with the replacement string "image". -/
theorem C7_single_counter_witness :
    "b" ∉ [("a", "anon"), ("c", "define_extern_"), ("a", "image")].map Prod.fst ∧
      (remap "b" "image"
        (remapAll [("a", "anon"), ("c", "define_extern_"), ("a", "image")] [])).1 =
        "image" ++ toString
          ([("a", "anon"), ("c", "define_extern_"), ("a", "image")].map Prod.fst).toFinset.card ∧
      (remap "b" "image"
        (remapAll [("a", "anon"), ("c", "define_extern_"), ("a", "image")] [])).1 = "image2" :=
  ⟨by decide,
    congrArg Prod.fst (C7_single_counter [("a", "anon"), ("c", "define_extern_"), ("a", "image")]
      "b" "image" (by decide)).1,
    by decide⟩

/-- C8 (evaluation at the failing input).  Rewriting the intrinsic call `likely (x)` returns
the node itself with the map unchanged: its argument list is still `[x]`, whereas the
rewritten argument list is `[anon0]`. -/
theorem C8_intrinsic_call_args_not_rewritten :
    mutate (Expr.Call Int32 "likely" [Expr.Variable Int32 "x"] CallType.PureIntrinsic) [] =
        (Expr.Call Int32 "likely" [Expr.Variable Int32 "x"] CallType.PureIntrinsic, []) ∧
      mutateList [Expr.Variable Int32 "x"] [] =
        ([Expr.Variable Int32 "anon0"], [("x", "anon0")]) ∧
      (mutate (Expr.Call Int32 "likely" [Expr.Variable Int32 "x"] CallType.PureIntrinsic) []).1 ≠
        Expr.Call Int32 "likely" (mutateList [Expr.Variable Int32 "x"] []).1
          CallType.PureIntrinsic :=
  ⟨rfl, rfl, fun h => absurd (congrArg Expr.variables h) (by decide)⟩

/-- C9.  A call of kind Extern or ExternCPlusPlus (resp. Image) is rewritten to a variable
reference of the call's type whose name is what `remap` returns for the call's name with
"define_extern_" (resp. "image"): the existing alias when the name has an entry, and
otherwise the replacement string followed by the map size, which becomes the one new entry.
The arguments play no part: the result and the new map do not depend on them. -/
theorem C9_extern_and_image_calls (t : Type_) (name : String) (args : List Expr)
    (ct : CallType) (m : Remapping) (h : ct.isExternOrImage = true) :
    mutate (Expr.Call t name args ct) m =
        (Expr.Variable t
            (remap name (if ct = CallType.Image then "image" else "define_extern_") m).1,
          (remap name (if ct = CallType.Image then "image" else "define_extern_") m).2) ∧
      (∀ a, Remapping.lookup name m = some a →
        mutate (Expr.Call t name args ct) m = (Expr.Variable t a, m)) ∧
      (Remapping.lookup name m = none →
        mutate (Expr.Call t name args ct) m =
          (Expr.Variable t
              ((if ct = CallType.Image then "image" else "define_extern_") ++
                toString m.length),
            m ++ [(name, (if ct = CallType.Image then "image" else "define_extern_") ++
                toString m.length)])) ∧
      mutate (Expr.Call t name args ct) m = mutate (Expr.Call t name [] ct) m := by
  have h1 : mutate (Expr.Call t name args ct) m =
      (Expr.Variable t
          (remap name (if ct = CallType.Image then "image" else "define_extern_") m).1,
        (remap name (if ct = CallType.Image then "image" else "define_extern_") m).2) := by
    cases ct <;> simp [CallType.isExternOrImage] at h <;> simp [mutate, visit_Call]
  have h2 : mutate (Expr.Call t name [] ct) m =
      (Expr.Variable t
          (remap name (if ct = CallType.Image then "image" else "define_extern_") m).1,
        (remap name (if ct = CallType.Image then "image" else "define_extern_") m).2) := by
    cases ct <;> simp [CallType.isExternOrImage] at h <;> simp [mutate, visit_Call]
  refine ⟨h1, fun a ha => ?_, fun hn => ?_, h1.trans h2.symm⟩
  · rw [h1, remap_of_some _ ha]
  · rw [h1, remap_of_none _ hn]

/-- C9, at the extern call `f (y)` on a new instance. -/
theorem C9_extern_and_image_calls_witness :
    CallType.Extern.isExternOrImage = true ∧
      mutate (Expr.Call Int32 "f" [Expr.Variable Int32 "y"] CallType.Extern) [] =
        (Expr.Variable Int32 "define_extern_0", [("f", "define_extern_0")]) :=
  ⟨rfl, ((C9_extern_and_image_calls Int32 "f" [Expr.Variable Int32 "y"] CallType.Extern []
    rfl).2.2.1 rfl).trans rfl⟩

/-- C10.  Shape preservation: for a tree `e` without call nodes and any starting map `m`,
the rewrite yields a map that extends `m` (it keeps every entry of `m`, in place) and has an
entry for every variable name of `e`, and the tree `e` with each variable-reference name `n`
replaced by the new map's entry for `n`, all else being as in `e`. -/
theorem C10_shape_preservation (e : Expr) (m : Remapping) (h : e.callKinds = []) :
    (∀ entry ∈ m, entry ∈ (mutate e m).2) ∧
      (∀ k v, Remapping.lookup k m = some v → Remapping.lookup k (mutate e m).2 = some v) ∧
      (∀ n ∈ e.variables, ∃ a, Remapping.lookup n (mutate e m).2 = some a) ∧
      (mutate e m).1 = e.mapVars (Remapping.aliasOf (mutate e m).2) := by
  have hr := mutate_replaced e m
  refine ⟨fun entry he => hr.1.subset he, fun k v hk => lookup_of_isPrefix hr.1 hk,
    mutate_variables_defined e m h _ (List.prefix_refl _), ?_⟩
  rw [hr.2 _ (List.prefix_refl _), replaced_eq_mapVars _ e h]

/-- C10, at the tree `select (x < 3, y, x)` with the starting map holding (y, anon0). -/
theorem C10_shape_preservation_witness :
    (Expr.Select Int32
        (Expr.Binary BinOp.LT Int32 (Expr.Variable Int32 "x") (Expr.IntImm Int32 3))
        (Expr.Variable Int32 "y") (Expr.Variable Int32 "x")).callKinds = [] ∧
      mutate (Expr.Select Int32
        (Expr.Binary BinOp.LT Int32 (Expr.Variable Int32 "x") (Expr.IntImm Int32 3))
        (Expr.Variable Int32 "y") (Expr.Variable Int32 "x")) [("y", "anon0")] =
      (Expr.Select Int32
        (Expr.Binary BinOp.LT Int32 (Expr.Variable Int32 "anon1") (Expr.IntImm Int32 3))
        (Expr.Variable Int32 "anon0") (Expr.Variable Int32 "anon1"),
        [("y", "anon0"), ("x", "anon1")]) :=
  ⟨rfl, Prod.ext
    ((C10_shape_preservation (Expr.Select Int32
        (Expr.Binary BinOp.LT Int32 (Expr.Variable Int32 "x") (Expr.IntImm Int32 3))
        (Expr.Variable Int32 "y") (Expr.Variable Int32 "x")) [("y", "anon0")] rfl).2.2.2.trans
      rfl) rfl⟩

/-! ## Ordered sets (`std::set`) -/

theorem set_emplace_mem {α κ : Type} [LinearOrder κ] {comp : α → α → Bool} {key : α → κ}
    (hk : ∀ a b, comp a b = true ↔ key a < key b) (x : α) (s : List α)
    (hs : s.Pairwise (fun a b => key a < key b)) (z : α) :
    z ∈ set_emplace comp x s ↔ z ∈ s ∨ (z = x ∧ ∀ y ∈ s, key y ≠ key x) := by
  induction s with
  | nil => simp [set_emplace]
  | cons y ys ih =>
    rw [List.pairwise_cons] at hs
    by_cases h1 : comp x y = true
    · have h1k := (hk x y).mp h1
      simp only [set_emplace, h1, if_true, List.mem_cons]
      constructor
      · rintro (h | h)
        · refine Or.inr ⟨h, ?_⟩
          rintro w (rfl | hw)
          · exact ne_of_gt h1k
          · exact ne_of_gt (lt_trans h1k (hs.1 w hw))
        · exact Or.inl h
      · rintro (h | h)
        · exact Or.inr h
        · exact Or.inl h.1
    · by_cases h2 : comp y x = true
      · have h2k := (hk y x).mp h2
        simp only [set_emplace, h1, h2, if_true, if_false, Bool.false_eq_true, List.mem_cons, ih hs.2]
        constructor
        · rintro (h | h | h)
          · exact Or.inl (Or.inl h)
          · exact Or.inl (Or.inr h)
          · refine Or.inr ⟨h.1, ?_⟩
            rintro w (rfl | hw)
            · exact ne_of_lt h2k
            · exact h.2 w hw
        · rintro ((h | h) | h)
          · exact Or.inl h
          · exact Or.inr (Or.inl h)
          · exact Or.inr (Or.inr ⟨h.1, fun w hw => h.2 w (Or.inr hw)⟩)
      · have hxy : key y = key x := by
          have n1 : ¬ key x < key y := fun h => h1 ((hk x y).mpr h)
          have n2 : ¬ key y < key x := fun h => h2 ((hk y x).mpr h)
          exact le_antisymm (not_lt.mp n1) (not_lt.mp n2)
        simp only [set_emplace, h1, h2, if_false, Bool.false_eq_true, List.mem_cons]
        constructor
        · intro h; exact Or.inl h
        · rintro (h | h)
          · exact h
          · exact absurd hxy (h.2 y (Or.inl rfl))

theorem set_emplace_sorted {α κ : Type} [LinearOrder κ] {comp : α → α → Bool} {key : α → κ}
    (hk : ∀ a b, comp a b = true ↔ key a < key b) (x : α) (s : List α)
    (hs : s.Pairwise (fun a b => key a < key b)) :
    (set_emplace comp x s).Pairwise (fun a b => key a < key b) := by
  induction s with
  | nil => simp [set_emplace]
  | cons y ys ih =>
    have hs2 := hs
    rw [List.pairwise_cons] at hs2
    by_cases h1 : comp x y = true
    · have h1k := (hk x y).mp h1
      simp only [set_emplace, h1, if_true]
      refine List.pairwise_cons.mpr ⟨?_, hs⟩
      rintro w hw
      rcases List.mem_cons.mp hw with rfl | hw
      · exact h1k
      · exact lt_trans h1k (hs2.1 w hw)
    · by_cases h2 : comp y x = true
      · have h2k := (hk y x).mp h2
        simp only [set_emplace, h1, h2, if_true, if_false, Bool.false_eq_true]
        refine List.pairwise_cons.mpr ⟨?_, ih hs2.2⟩
        intro w hw
        rcases (set_emplace_mem hk x ys hs2.2 w).mp hw with hw | hw
        · exact hs2.1 w hw
        · rw [hw.1]; exact h2k
      · simpa only [set_emplace, h1, h2, if_false, Bool.false_eq_true] using hs

theorem emplace_all_sorted {α κ : Type} [LinearOrder κ] {comp : α → α → Bool} {key : α → κ}
    (hk : ∀ a b, comp a b = true ↔ key a < key b) (xs acc : List α)
    (hs : acc.Pairwise (fun a b => key a < key b)) :
    (emplace_all comp xs acc).Pairwise (fun a b => key a < key b) := by
  induction xs generalizing acc with
  | nil => simpa [emplace_all] using hs
  | cons x xs ih => exact ih _ (set_emplace_sorted hk x acc hs)

/-- The elements of the set after a loop of `emplace`: the old elements, and of each class of
equivalent new elements that has no old element, the first one in the order of insertion. -/
theorem emplace_all_mem {α κ : Type} [LinearOrder κ] {comp : α → α → Bool} {key : α → κ}
    (hk : ∀ a b, comp a b = true ↔ key a < key b) (xs acc : List α)
    (hs : acc.Pairwise (fun a b => key a < key b)) (z : α) :
    z ∈ emplace_all comp xs acc ↔
      z ∈ acc ∨ ∃ pre post, xs = pre ++ z :: post ∧ (∀ y ∈ acc, key y ≠ key z) ∧
        ∀ y ∈ pre, key y ≠ key z := by
  induction xs generalizing acc with
  | nil => simp [emplace_all]
  | cons x xs ih =>
    have hmem := set_emplace_mem hk x acc hs
    simp only [emplace_all]
    rw [ih _ (set_emplace_sorted hk x acc hs)]
    constructor
    · rintro (h | ⟨pre, post, hx, hacc, hpre⟩)
      · rcases (hmem z).mp h with h | ⟨rfl, h⟩
        · exact Or.inl h
        · exact Or.inr ⟨[], xs, rfl, h, by simp⟩
      · refine Or.inr ⟨x :: pre, post, by rw [hx]; rfl,
          fun y hy => hacc y ((hmem y).mpr (Or.inl hy)), ?_⟩
        rintro y hy
        rcases List.mem_cons.mp hy with rfl | hy
        · by_cases hin : y ∈ set_emplace comp y acc
          · exact hacc y hin
          · have hex : ∃ w ∈ acc, key w = key y := by
              by_contra hne
              push_neg at hne
              exact hin ((hmem y).mpr (Or.inr ⟨rfl, hne⟩))
            obtain ⟨w, hw, hwk⟩ := hex
            rw [← hwk]
            exact hacc w ((hmem w).mpr (Or.inl hw))
        · exact hpre y hy
    · rintro (h | ⟨pre, post, hx, hacc, hpre⟩)
      · exact Or.inl ((hmem z).mpr (Or.inl h))
      · cases pre with
        | nil =>
          simp only [List.nil_append, List.cons.injEq] at hx
          exact Or.inl ((hmem z).mpr (Or.inr ⟨hx.1.symm, by rw [hx.1]; exact hacc⟩))
        | cons p pre =>
          simp only [List.cons_append, List.cons.injEq] at hx
          refine Or.inr ⟨pre, post, hx.2, ?_, fun y hy => hpre y (List.mem_cons_of_mem _ hy)⟩
          intro y hy
          rcases (hmem y).mp hy with hy | ⟨rfl, _⟩
          · exact hacc y hy
          · rw [hx.1]; exact hpre p (List.mem_cons_self _ _)

/-- In a list, an element has a first element with the same key. -/
theorem exists_first_key {α κ : Type} (key : α → κ) (e : α) (l : List α) (h : e ∈ l) :
    ∃ pre z post, l = pre ++ z :: post ∧ key z = key e ∧ ∀ y ∈ pre, key y ≠ key e := by
  induction l with
  | nil => simp at h
  | cons x xs ih =>
    by_cases hx : key x = key e
    · exact ⟨[], x, xs, rfl, hx, by simp⟩
    · rcases List.mem_cons.mp h with rfl | h
      · exact absurd rfl hx
      · obtain ⟨pre, z, post, h1, h2, h3⟩ := ih h
        refine ⟨x :: pre, z, post, by rw [h1]; rfl, h2, ?_⟩
        intro y hy
        rcases List.mem_cons.mp hy with rfl | hy
        · exact hx
        · exact h3 y hy

theorem pairwise_key_unique {α κ : Type} [LinearOrder κ] {key : α → κ} {l : List α}
    (hs : l.Pairwise (fun a b => key a < key b)) {a b : α} (ha : a ∈ l) (hb : b ∈ l)
    (hab : key a = key b) : a = b := by
  induction l with
  | nil => simp at ha
  | cons x xs ih =>
    rw [List.pairwise_cons] at hs
    rcases List.mem_cons.mp ha with ha1 | ha1 <;> rcases List.mem_cons.mp hb with hb1 | hb1
    · rw [ha1, hb1]
    · rw [ha1] at hab
      exact absurd hab (ne_of_lt (hs.1 b hb1))
    · rw [hb1] at hab
      exact absurd hab.symm (ne_of_lt (hs.1 a ha1))
    · exact ih hs.2 ha1 hb1

theorem Compare_iff (a b : String × Int) : Compare a b = true ↔ -a.2 < -b.2 := by
  simp [Compare]

theorem string_less_iff (a b : String) : string_less a b = true ↔ a.data < b.data := by
  simp [string_less]

theorem pair_less_iff (a b : String × String) :
    pair_less a b = true ↔
      toLex (a.1.data, a.2.data) < toLex (b.1.data, b.2.data) := by
  rw [Prod.Lex.lt_iff]
  simp only [pair_less, Bool.or_eq_true, Bool.and_eq_true, Bool.not_eq_true', string_less_iff,
    ← Bool.not_eq_true]
  constructor
  · rintro (h | ⟨h1, h2⟩)
    · exact Or.inl h
    · rcases lt_trichotomy a.1.data b.1.data with h | h | h
      · exact Or.inl h
      · exact Or.inr ⟨h, h2⟩
      · exact absurd h h1
  · rintro (h | ⟨h1, h2⟩)
    · exact Or.inl h
    · exact Or.inr ⟨by rw [h1]; exact lt_irrefl _, h2⟩

theorem pair_key_injective {a b : String × String}
    (h : toLex (a.1.data, a.2.data) = toLex (b.1.data, b.2.data)) : a = b := by
  have h2 : (a.1.data, a.2.data) = (b.1.data, b.2.data) := h
  simp only [Prod.mk.injEq] at h2
  exact Prod.ext (String.ext h2.1) (String.ext h2.2)

theorem pair_lex_lt_iff (a b : String × String) :
    pair_lex_lt a b ↔ toLex (a.1.data, a.2.data) < toLex (b.1.data, b.2.data) := by
  rw [Prod.Lex.lt_iff]
  simp only [pair_lex_lt]
  constructor
  · rintro (h | ⟨h1, h2⟩)
    · exact Or.inl h
    · exact Or.inr ⟨by rw [h1], h2⟩
  · rintro (h | ⟨h1, h2⟩)
    · exact Or.inl h
    · exact Or.inr ⟨String.ext h1, h2⟩

/-- A `std::set` of string pairs filled from a list: strictly increasing for the pair order,
without duplicates, and with the same elements as the list. -/
theorem pair_set_spec (xs : List (String × String)) :
    (emplace_all pair_less xs []).Pairwise pair_lex_lt ∧
      (emplace_all pair_less xs []).Nodup ∧
      ∀ p, p ∈ emplace_all pair_less xs [] ↔ p ∈ xs := by
  have hs := emplace_all_sorted pair_less_iff xs [] List.Pairwise.nil
  refine ⟨hs.imp (fun h => (pair_lex_lt_iff _ _).mpr h), ?_, fun p => ?_⟩
  · exact hs.imp (fun h hab => by rw [hab] at h; exact lt_irrefl _ h)
  · rw [emplace_all_mem pair_less_iff xs [] List.Pairwise.nil]
    constructor
    · rintro (h | ⟨pre, post, hx, _, _⟩)
      · simp at h
      · rw [hx]; simp
    · intro h
      obtain ⟨pre, z, post, h1, h2, h3⟩ :=
        exists_first_key (fun a : String × String => toLex (a.1.data, a.2.data)) p xs h
      have hz : z = p := pair_key_injective h2
      subst hz
      exact Or.inr ⟨pre, post, h1, by simp, h3⟩

theorem anonymize_frame (no_anon : String) (s : BasicTelemetry) :
    (anonymize no_anon s).matched_simplifier_rules = s.matched_simplifier_rules ∧
      (anonymize no_anon s).output_path = s.output_path := by
  unfold anonymize
  split <;> exact ⟨rfl, rfl⟩

theorem pair_less_irrefl (q : String × String) : pair_less q q = false := by
  cases h : pair_less q q with
  | false => rfl
  | true => exact absurd ((pair_less_iff q q).mp h) (lt_irrefl _)

theorem anonymize_twice_recorded (no_anon : String) (path v : String) (e : Expr) :
    ∃ x, (anonymize no_anon
        (record_non_monotonic_loop_var v e
          (record_non_monotonic_loop_var v e ⟨path, [], [], []⟩))).non_monotonic_loop_vars =
      [x, x] := by
  by_cases h : no_anon = "1"
  · exact ⟨(v, e), by simp [anonymize, h, record_non_monotonic_loop_var]⟩
  · have hl := (anonymize_loop_vars_replaced [(v, e), (v, e)] []).2 _ (List.prefix_refl _)
    refine ⟨(Remapping.aliasOf (anonymize_loop_vars [(v, e), (v, e)] []).2 v,
      e.replaced (Remapping.aliasOf (anonymize_loop_vars [(v, e), (v, e)] []).2)), ?_⟩
    simp only [anonymize, if_neg h, record_non_monotonic_loop_var, List.nil_append,
      List.singleton_append]
    rw [hl.1]
    rfl

/-- C11.  Each of the two pair sections written by `finalize` is strictly increasing in the
lexicographic order on (first string, second string), hence without duplicates, and holds
exactly the stringified retained pairs; recording the identical (loop_var, expr) pair twice
on a new session gives a section with exactly one entry. -/
theorem C11_pair_sections_sorted_deduplicated (print : Expr → String) (no_anon : String)
    (s : BasicTelemetry) :
    ((finalize print no_anon s).2.non_monotonic_loop_vars.Pairwise pair_lex_lt ∧
        (finalize print no_anon s).2.non_monotonic_loop_vars.Nodup ∧
        ∀ p, p ∈ (finalize print no_anon s).2.non_monotonic_loop_vars ↔
          p ∈ (finalize print no_anon s).1.non_monotonic_loop_vars.map
            (fun it => (it.1, print it.2))) ∧
      ((finalize print no_anon s).2.failed_to_prove.Pairwise pair_lex_lt ∧
        (finalize print no_anon s).2.failed_to_prove.Nodup ∧
        ∀ p, p ∈ (finalize print no_anon s).2.failed_to_prove ↔
          p ∈ (finalize print no_anon s).1.failed_to_prove_exprs.map
            (fun it => (print it.1, print it.2))) ∧
      ∀ (path v : String) (e : Expr),
        ((finalize print no_anon
          (record_non_monotonic_loop_var v e
            (record_non_monotonic_loop_var v e ⟨path, [], [], []⟩))).2.non_monotonic_loop_vars
          ).length = 1 := by
  refine ⟨pair_set_spec _, pair_set_spec _, fun path v e => ?_⟩
  obtain ⟨x, hx⟩ := anonymize_twice_recorded no_anon path v e
  simp only [finalize, hx, List.map_cons, List.map_nil, emplace_all, set_emplace,
    pair_less_irrefl, Bool.false_eq_true, if_false, List.length_singleton]

/-! ## Later `remap` calls -/

theorem remapAll_isPrefix (cs : List (String × String)) (m : Remapping) :
    m <+: remapAll cs m := by
  induction cs generalizing m with
  | nil => exact List.prefix_refl _
  | cons c cs ih => exact (remap_isPrefix c.1 c.2 m).trans (ih _)

theorem lookup_remap_of_ne {x y : String} (p : String) (m : Remapping) (h : y ≠ x) :
    Remapping.lookup y (remap x p m).2 = Remapping.lookup y m := by
  cases hx : Remapping.lookup x m with
  | some v => rw [remap_of_some p hx]
  | none =>
    rw [remap_of_none p hx]
    cases hy : Remapping.lookup y m with
    | some w => exact lookup_append_of_some _ hy
    | none =>
      rw [lookup_append_of_none _ hy]
      have hxy : ¬ x = y := fun h2 => h h2.symm
      simp [Remapping.lookup, hxy]

/-- C12.  Alias lookup is idempotent and append-only: once `remap` has returned an alias for
`x`, every later `remap` call for `x` on the same instance, with any replacement string and
after any other calls, returns that alias and leaves the map as it is; the call for `x`
leaves the entries of all other names unchanged and keeps every entry the map had. -/
theorem C12_alias_lookup_idempotent (m : Remapping) (x p : String) :
    (∀ (calls : List (String × String)) (p2 : String),
        remap x p2 (remapAll calls (remap x p m).2) =
          ((remap x p m).1, remapAll calls (remap x p m).2)) ∧
      (∀ y, y ≠ x → Remapping.lookup y (remap x p m).2 = Remapping.lookup y m) ∧
      (∀ y v, Remapping.lookup y m = some v →
        Remapping.lookup y (remap x p m).2 = some v) := by
  refine ⟨fun calls p2 => ?_, fun y hy => lookup_remap_of_ne p m hy,
    fun y v hv => lookup_of_isPrefix (remap_isPrefix x p m) hv⟩
  exact remap_of_some p2
    (lookup_of_isPrefix (remapAll_isPrefix calls _) (remap_lookup x p m))

/-! ## Global numbering -/

theorem getElem?_numbered (k i : Nat) (l : List (String × String)) :
    (numbered k l)[i]? = (l[i]?).map (fun c => (c.1, c.2 ++ toString (k + i))) := by
  induction l generalizing k i with
  | nil => simp [numbered]
  | cons c cs ih =>
    cases i with
    | zero => simp [numbered]
    | succ j =>
      simp only [numbered, List.getElem?_cons_succ, ih]
      have : k + 1 + j = k + (j + 1) := by omega
      rw [this]

theorem lookup_numbered {n p : String} {k i : Nat} {l : List (String × String)}
    (hn : (l.map Prod.fst).Nodup) (h : l[i]? = some (n, p)) :
    Remapping.lookup n (numbered k l) = some (p ++ toString (k + i)) := by
  induction l generalizing k i with
  | nil => simp at h
  | cons c cs ih =>
    rw [List.map_cons, List.nodup_cons] at hn
    cases i with
    | zero =>
      simp only [List.getElem?_cons_zero, Option.some.injEq] at h
      subst h
      simp [numbered, Remapping.lookup]
    | succ j =>
      simp only [List.getElem?_cons_succ] at h
      have hne : ¬ c.1 = n := by
        intro hc
        apply hn.1
        rw [hc]
        exact List.mem_map.mpr ⟨(n, p), List.getElem?_mem h, rfl⟩
      simp only [numbered, Remapping.lookup, hne, if_false]
      rw [ih hn.2 h]
      have : k + 1 + j = k + (j + 1) := by omega
      rw [this]

/-- C18.  Global numbering: after any sequence of `remap` calls on a new instance, the size
of the alias map is the number of distinct names requested, its keys are these names in the
order of their first request, and the k-th distinct name (from 0, over all replacement strings
together) is mapped to the replacement string of the call that first requested it followed by
the decimal rendering of k. -/
theorem C18_global_numbering (calls : List (String × String)) :
    (remapAll calls []).length = (calls.map Prod.fst).toFinset.card ∧
      (remapAll calls []).map Prod.fst = (firstRequests calls).map Prod.fst ∧
      ∀ (k : Nat) (name replacement : String),
        (firstRequests calls)[k]? = some (name, replacement) →
          (remapAll calls [])[k]? = some (name, replacement ++ toString k) ∧
            Remapping.lookup name (remapAll calls []) = some (replacement ++ toString k) := by
  rw [remapAll_fresh]
  refine ⟨by rw [numbered_length, firstRequests_length], numbered_fst _ _,
    fun k name replacement h => ⟨?_, ?_⟩⟩
  · rw [getElem?_numbered, h]
    simp
  · have := lookup_numbered (k := 0) (firstRequests_nodup calls) h
    simpa using this

/-! ## Recording after `finalize` -/

theorem increment_sum (r : String) (m : List (String × Int)) :
    ((increment r m).map Prod.snd).sum = (m.map Prod.snd).sum + 1 := by
  induction m with
  | nil => simp [increment]
  | cons c rest ih =>
    obtain ⟨k, v⟩ := c
    by_cases h1 : string_less r k = true
    · simp only [increment, h1, if_true, List.map_cons, List.sum_cons]
      omega
    · by_cases h2 : string_less k r = true
      · simp only [increment, h1, h2, if_true, if_false, Bool.false_eq_true, List.map_cons,
          List.sum_cons, ih]
        omega
      · simp only [increment, h1, h2, if_false, Bool.false_eq_true, List.map_cons,
          List.sum_cons]
        omega

/-- C13 (counterexample).  On a new session that has been finalized, a later
`record_non_monotonic_loop_var` and a later `record_matched_simplifier_rule` do not leave the
record collections unchanged: the observation is appended and the counter is created. -/
theorem C13_record_after_finalize_counterexample :
    (record_non_monotonic_loop_var "v" (Expr.Variable Int32 "v")
        (finalize (fun _ => "") "" ⟨"", [], [], []⟩).1).non_monotonic_loop_vars ≠
        (finalize (fun _ => "") "" ⟨"", [], [], []⟩).1.non_monotonic_loop_vars ∧
      (record_matched_simplifier_rule "r"
        (finalize (fun _ => "") "" ⟨"", [], [], []⟩).1).matched_simplifier_rules = [("r", 1)] ∧
      (finalize (fun _ => "") "" ⟨"", [], [], []⟩).1.matched_simplifier_rules = [] :=
  ⟨fun h => absurd (congrArg List.length h) (by decide), by decide, by decide⟩

/-- C13 (amended).  No lifecycle is enforced: on the session left by `finalize`, every later
`record_*` call updates its collection as on any session (the counters of the rule section
grow by 1 in total, the observation is appended at the end), and a later `finalize` writes the
rule section again, the same as before. -/
theorem C13_no_lifecycle_enforcement (print : Expr → String) (no_anon : String)
    (s : BasicTelemetry) (r v : String) (e a b : Expr) :
    (record_matched_simplifier_rule r (finalize print no_anon s).1).matched_simplifier_rules =
        increment r (finalize print no_anon s).1.matched_simplifier_rules ∧
      (((record_matched_simplifier_rule r
          (finalize print no_anon s).1).matched_simplifier_rules).map Prod.snd).sum =
        ((finalize print no_anon s).1.matched_simplifier_rules.map Prod.snd).sum + 1 ∧
      (record_non_monotonic_loop_var v e (finalize print no_anon s).1).non_monotonic_loop_vars =
        (finalize print no_anon s).1.non_monotonic_loop_vars ++ [(v, e)] ∧
      (record_failed_to_prove a b (finalize print no_anon s).1).failed_to_prove_exprs =
        (finalize print no_anon s).1.failed_to_prove_exprs ++ [(a, b)] ∧
      (finalize print no_anon (finalize print no_anon s).1).2.matched_simplifier_rules =
        (finalize print no_anon s).2.matched_simplifier_rules := by
  refine ⟨rfl, increment_sum r _, rfl, rfl, ?_⟩
  simp only [finalize, (anonymize_frame no_anon _).1]

/-! ## The opt-out -/

/-- C14.  With `HL_TELEMETRY_NO_ANONYMIZE` equal to "1", `anonymize` leaves the session as it
is, so every recorded loop-variable name reaches the loop section of the report verbatim (next
to its printed expression); with any other value each loop-variable name is replaced by its
entry in the anonymizer's map. -/
theorem C14_opt_out (no_anon : String) (s : BasicTelemetry) :
    (no_anon = "1" →
        anonymize no_anon s = s ∧
          ∀ (print : Expr → String) (it : String × Expr), it ∈ s.non_monotonic_loop_vars →
            (it.1, print it.2) ∈ (finalize print no_anon s).2.non_monotonic_loop_vars) ∧
      (no_anon ≠ "1" →
        (anonymize no_anon s).non_monotonic_loop_vars.map Prod.fst =
            s.non_monotonic_loop_vars.map
              (fun it => Remapping.aliasOf (anonymizer_map s) it.1) ∧
          ∀ it ∈ s.non_monotonic_loop_vars,
            Remapping.lookup it.1 (anonymizer_map s) =
              some (Remapping.aliasOf (anonymizer_map s) it.1)) := by
  constructor
  · intro h
    have h1 : anonymize no_anon s = s := by simp [anonymize, h]
    refine ⟨h1, fun print it hit => ?_⟩
    have hm := (pair_set_spec ((anonymize no_anon s).non_monotonic_loop_vars.map
      (fun it => (it.1, print it.2)))).2.2 (it.1, print it.2)
    simp only [finalize]
    rw [hm, h1]
    exact List.mem_map.mpr ⟨it, hit, rfl⟩
  · intro h
    have hl := anonymize_loop_vars_replaced s.non_monotonic_loop_vars []
    have hf := anonymize_failed_replaced s.failed_to_prove_exprs
      (anonymize_loop_vars s.non_monotonic_loop_vars []).2
    have h1 := hl.2 (anonymizer_map s) hf.1
    constructor
    · have e1 : (anonymize no_anon s).non_monotonic_loop_vars =
          (anonymize_loop_vars s.non_monotonic_loop_vars []).1 := by
        simp only [anonymize, if_neg h]
      rw [e1, h1.1, List.map_map]
      rfl
    · intro it hit
      obtain ⟨a, ha⟩ := h1.2 it hit
      simp [Remapping.aliasOf, ha]

/-- C14, at the sample session with the opt-out set: `my_secret_var` is in the report. -/
theorem C14_opt_out_witness :
    anonymize "1" sampleRulesSession = sampleRulesSession ∧
      ("my_secret_var", "x") ∈
        (finalize (fun _ => "x") "1" sampleRulesSession).2.non_monotonic_loop_vars ∧
      (anonymize "" sampleRulesSession).non_monotonic_loop_vars.map Prod.fst = ["anon0"] :=
  ⟨((C14_opt_out "1" sampleRulesSession).1 rfl).1,
    ((C14_opt_out "1" sampleRulesSession).1 rfl).2 (fun _ => "x")
      ("my_secret_var", Expr.Variable Int32 "my_secret_var") (by simp [sampleRulesSession]),
    rfl⟩

/-! ## The rule counters -/

theorem string_less_trichotomy {a b : String} (h1 : ¬ string_less a b = true)
    (h2 : ¬ string_less b a = true) : a = b := by
  rw [string_less_iff] at h1 h2
  rcases lt_trichotomy a.data b.data with h | h | h
  · exact absurd h h1
  · exact String.ext h
  · exact absurd h h2

theorem rule_counter_of_not_mem {r : String} {m : List (String × Int)}
    (h : ∀ e ∈ m, e.1 ≠ r) : rule_counter r m = none := by
  induction m with
  | nil => rfl
  | cons c rest ih =>
    obtain ⟨k, v⟩ := c
    have hk : ¬ k = r := h (k, v) (List.mem_cons_self _ _)
    simp only [rule_counter, hk, if_false]
    exact ih (fun e he => h e (List.mem_cons_of_mem _ he))

theorem increment_counter (r : String) (m : List (String × Int))
    (hm : m.Pairwise (fun a b => a.1.data < b.1.data)) :
    rule_counter r (increment r m) = some ((rule_counter r m).getD 0 + 1) := by
  induction m with
  | nil => simp [increment, rule_counter]
  | cons c rest ih =>
    obtain ⟨k, v⟩ := c
    rw [List.pairwise_cons] at hm
    by_cases h1 : string_less r k = true
    · have h1k := (string_less_iff r k).mp h1
      have hnone : rule_counter r ((k, v) :: rest) = none := by
        apply rule_counter_of_not_mem
        intro e he hr
        rcases List.mem_cons.mp he with rfl | he
        · simp only at hr
          rw [hr] at h1k
          exact lt_irrefl _ h1k
        · have := lt_trans h1k (hm.1 e he)
          rw [hr] at this
          exact lt_irrefl _ this
      rw [hnone]
      simp [increment, h1, rule_counter]
    · by_cases h2 : string_less k r = true
      · have h2k := (string_less_iff k r).mp h2
        have hne : ¬ k = r := by
          intro hkr
          rw [hkr] at h2k
          exact lt_irrefl _ h2k
        simp only [increment, h1, h2, if_true, if_false, Bool.false_eq_true, rule_counter, hne]
        exact ih hm.2
      · have hkr : k = r := (string_less_trichotomy h1 h2).symm
        subst hkr
        simp [increment, h1, rule_counter]

theorem increment_counter_of_ne (r r2 : String) (m : List (String × Int)) (h : r2 ≠ r) :
    rule_counter r2 (increment r m) = rule_counter r2 m := by
  have hne : ¬ r = r2 := fun h2 => h h2.symm
  induction m with
  | nil => simp [increment, rule_counter, hne]
  | cons c rest ih =>
    obtain ⟨k, v⟩ := c
    by_cases h1 : string_less r k = true
    · simp [increment, h1, rule_counter, hne]
    · by_cases h2 : string_less k r = true
      · simp only [increment, h1, h2, if_true, if_false, Bool.false_eq_true, rule_counter, ih]
      · have hkr : k = r := (string_less_trichotomy h1 h2).symm
        have hk2 : ¬ k = r2 := by rw [hkr]; exact hne
        simp [increment, h1, h2, rule_counter, hk2]

theorem mem_increment_fst {r : String} {m : List (String × Int)} {e : String × Int}
    (h : e ∈ increment r m) : e.1 = r ∨ ∃ e2 ∈ m, e2.1 = e.1 := by
  induction m with
  | nil =>
    simp only [increment, List.mem_singleton] at h
    exact Or.inl (by rw [h])
  | cons c rest ih =>
    obtain ⟨k, v⟩ := c
    by_cases h1 : string_less r k = true
    · simp only [increment, h1, if_true, List.mem_cons] at h
      rcases h with h | h | h
      · exact Or.inl (by rw [h])
      · exact Or.inr ⟨(k, v), List.mem_cons_self _ _, by rw [h]⟩
      · exact Or.inr ⟨e, List.mem_cons_of_mem _ h, rfl⟩
    · by_cases h2 : string_less k r = true
      · simp only [increment, h1, h2, if_true, if_false, Bool.false_eq_true,
          List.mem_cons] at h
        rcases h with h | h
        · exact Or.inr ⟨(k, v), List.mem_cons_self _ _, by rw [h]⟩
        · rcases ih h with h3 | ⟨e2, he2, h3⟩
          · exact Or.inl h3
          · exact Or.inr ⟨e2, List.mem_cons_of_mem _ he2, h3⟩
      · simp only [increment, h1, h2, if_false, Bool.false_eq_true, List.mem_cons] at h
        rcases h with h | h
        · exact Or.inr ⟨(k, v), List.mem_cons_self _ _, by rw [h]⟩
        · exact Or.inr ⟨e, List.mem_cons_of_mem _ h, rfl⟩

theorem increment_sorted (r : String) (m : List (String × Int))
    (hm : m.Pairwise (fun a b => a.1.data < b.1.data)) :
    (increment r m).Pairwise (fun a b => a.1.data < b.1.data) := by
  induction m with
  | nil => simp [increment]
  | cons c rest ih =>
    obtain ⟨k, v⟩ := c
    have hm2 := hm
    rw [List.pairwise_cons] at hm2
    by_cases h1 : string_less r k = true
    · have h1k := (string_less_iff r k).mp h1
      simp only [increment, h1, if_true]
      refine List.pairwise_cons.mpr ⟨?_, hm⟩
      intro e he
      rcases List.mem_cons.mp he with rfl | he
      · exact h1k
      · exact lt_trans h1k (hm2.1 e he)
    · by_cases h2 : string_less k r = true
      · have h2k := (string_less_iff k r).mp h2
        simp only [increment, h1, h2, if_true, if_false, Bool.false_eq_true]
        refine List.pairwise_cons.mpr ⟨?_, ih hm2.2⟩
        intro e he
        rcases mem_increment_fst he with h3 | ⟨e2, he2, h3⟩
        · show k.data < e.1.data
          rw [h3]; exact h2k
        · show k.data < e.1.data
          rw [← h3]; exact hm2.1 e2 he2
      · simp only [increment, h1, h2, if_false, Bool.false_eq_true]
        exact List.pairwise_cons.mpr ⟨hm2.1, hm2.2⟩

theorem record_rule_times_counter (r : String) (n : Nat) (s : BasicTelemetry)
    (hm : s.matched_simplifier_rules.Pairwise (fun a b => a.1.data < b.1.data)) :
    (rule_counter r (record_rule_times r n s).matched_simplifier_rules).getD 0 =
      (rule_counter r s.matched_simplifier_rules).getD 0 + n := by
  induction n generalizing s with
  | zero => simp [record_rule_times]
  | succ n ih =>
    simp only [record_rule_times]
    rw [ih _ (increment_sorted r _ hm)]
    simp only [record_matched_simplifier_rule, increment_counter r _ hm, Option.getD_some]
    push_cast
    omega

/-- C15.  On a session whose rule counters form a map (rule names strictly ascending) and
whose counter of `r` is below the largest `int64_t`, `record_matched_simplifier_rule (r)`
raises the counter of `r` by exactly 1 (without overflow), creating it at 1 when `r` was
absent; it leaves every other rule's counter, both observation sequences and the output path
unchanged, and the counters still form a map.  After `n` such calls on a new session, `n` not
above the largest `int64_t`, the counter of `r` is `n`. -/
theorem C15_record_matched_simplifier_rule (r : String) (s : BasicTelemetry)
    (hmap : s.matched_simplifier_rules.Pairwise (fun a b => a.1.data < b.1.data))
    (hrange : (rule_counter r s.matched_simplifier_rules).getD 0 < INT64_MAX) :
    rule_counter r (record_matched_simplifier_rule r s).matched_simplifier_rules =
        some ((rule_counter r s.matched_simplifier_rules).getD 0 + 1) ∧
      (rule_counter r s.matched_simplifier_rules).getD 0 + 1 ≤ INT64_MAX ∧
      (rule_counter r s.matched_simplifier_rules = none →
        rule_counter r (record_matched_simplifier_rule r s).matched_simplifier_rules = some 1) ∧
      (∀ r2, r2 ≠ r →
        rule_counter r2 (record_matched_simplifier_rule r s).matched_simplifier_rules =
          rule_counter r2 s.matched_simplifier_rules) ∧
      (record_matched_simplifier_rule r s).non_monotonic_loop_vars = s.non_monotonic_loop_vars ∧
      (record_matched_simplifier_rule r s).failed_to_prove_exprs = s.failed_to_prove_exprs ∧
      (record_matched_simplifier_rule r s).output_path = s.output_path ∧
      (record_matched_simplifier_rule r s).matched_simplifier_rules.Pairwise
        (fun a b => a.1.data < b.1.data) ∧
      ∀ (n : Nat) (path : String), (n : Int) ≤ INT64_MAX →
        (rule_counter r
          (record_rule_times r n ⟨path, [], [], []⟩).matched_simplifier_rules).getD 0 = n := by
  have h1 := increment_counter r s.matched_simplifier_rules hmap
  refine ⟨h1, by omega, fun hn => ?_, fun r2 h2 => increment_counter_of_ne r r2 _ h2, rfl, rfl,
    rfl, increment_sorted r _ hmap, fun n path _ => ?_⟩
  · simpa [hn] using h1
  · have := record_rule_times_counter r n ⟨path, [], [], []⟩ List.Pairwise.nil
    simpa [rule_counter] using this

/-- C15, at the sample session (counters a:3, b:5, c:5) and the rule `b`. -/
theorem C15_record_matched_simplifier_rule_witness :
    sampleRulesSession.matched_simplifier_rules.Pairwise (fun a b => a.1.data < b.1.data) ∧
      (rule_counter "b" sampleRulesSession.matched_simplifier_rules).getD 0 < INT64_MAX ∧
      rule_counter "b"
        (record_matched_simplifier_rule "b" sampleRulesSession).matched_simplifier_rules =
        some (5 + 1) :=
  ⟨by decide, by decide,
    (C15_record_matched_simplifier_rule "b" sampleRulesSession (by decide) (by decide)).1⟩

/-! ## `from_env` -/

/-- C16.  The session given by `from_env` for the state of `HL_TELEMETRY`: none when the
variable is undefined, empty or "0"; for "1" a session with the empty output path and empty
collections, whose report goes to stderr; for any other string a session with that string
as output path, whose report goes to that file. -/
theorem C16_from_env (value : Option String) :
    ((value = none ∨ value = some "" ∨ value = some "0") →
        from_env (get_env_variable value) = none) ∧
      (value = some "1" →
        from_env (get_env_variable value) = some ⟨"", [], [], []⟩ ∧
          BasicTelemetry.sink ⟨"", [], [], []⟩ = Sink.stderr) ∧
      ∀ path, value = some path → path ≠ "" → path ≠ "0" → path ≠ "1" →
        from_env (get_env_variable value) = some ⟨path, [], [], []⟩ ∧
          BasicTelemetry.sink ⟨path, [], [], []⟩ = Sink.file path := by
  have e0 : "".isEmpty = true := by decide
  have e1 : "1".isEmpty = false := by decide
  refine ⟨?_, ?_, ?_⟩
  · rintro (h | h | h) <;> subst h <;> simp [from_env, get_env_variable, e0]
  · intro h
    subst h
    exact ⟨by simp [from_env, get_env_variable, e1], by simp [BasicTelemetry.sink, e0]⟩
  · intro path h h0 h1 h2
    subst h
    have he : ¬ (path.isEmpty = true) := fun he => h0 ((String.isEmpty_iff path).mp he)
    exact ⟨by simp [from_env, get_env_variable, he, h1, h2],
      by simp [BasicTelemetry.sink, he]⟩

/-- C16, at the value `/tmp/report.json`. -/
theorem C16_from_env_witness :
    from_env (get_env_variable (some "/tmp/report.json")) =
        some ⟨"/tmp/report.json", [], [], []⟩ ∧
      from_env (get_env_variable none) = none :=
  ⟨((C16_from_env (some "/tmp/report.json")).2.2 "/tmp/report.json" rfl (by decide)
      (by decide) (by decide)).1,
    (C16_from_env none).1 (Or.inl rfl)⟩

/-! ## The rule section -/

/-- C17.  What the rule section contains: for rule counters forming a map (rule names
strictly ascending), the entries written by `finalize` have strictly decreasing counts, each
is an entry of the map, and for each entry of the map exactly one entry with its count is
written, whose rule name is the same or lexicographically smaller: of the rules sharing a
count, the one with the smallest name is written and the others are left out. -/
theorem C17_rule_section_contents (print : Expr → String) (no_anon : String)
    (s : BasicTelemetry)
    (hmap : s.matched_simplifier_rules.Pairwise (fun a b => a.1.data < b.1.data)) :
    (finalize print no_anon s).2.matched_simplifier_rules.Pairwise (fun a b => a.2 > b.2) ∧
      (∀ z ∈ (finalize print no_anon s).2.matched_simplifier_rules,
        z ∈ s.matched_simplifier_rules) ∧
      ∀ e ∈ s.matched_simplifier_rules,
        ∃ z ∈ (finalize print no_anon s).2.matched_simplifier_rules,
          z.2 = e.2 ∧ (z.1 = e.1 ∨ z.1.data < e.1.data) ∧
            ∀ z2 ∈ (finalize print no_anon s).2.matched_simplifier_rules,
              z2.2 = e.2 → z2 = z := by
  have hout : (finalize print no_anon s).2.matched_simplifier_rules =
      emplace_all Compare s.matched_simplifier_rules [] := by
    simp only [finalize, sorted_rules, (anonymize_frame no_anon s).1]
  rw [hout]
  have hs := emplace_all_sorted Compare_iff s.matched_simplifier_rules [] List.Pairwise.nil
  have hmem := emplace_all_mem Compare_iff s.matched_simplifier_rules [] List.Pairwise.nil
  refine ⟨hs.imp (fun h => by omega), fun z hz => ?_, fun e he => ?_⟩
  · rcases (hmem z).mp hz with h | ⟨pre, post, hx, _, _⟩
    · simp at h
    · rw [hx]; simp
  · obtain ⟨pre, z, post, h1, h2, h3⟩ :=
      exists_first_key (fun a : String × Int => -a.2) e s.matched_simplifier_rules he
    have hz2 : z.2 = e.2 := by
      have : -z.2 = -e.2 := h2
      omega
    have hzin : z ∈ emplace_all Compare s.matched_simplifier_rules [] :=
      (hmem z).mpr (Or.inr ⟨pre, post, h1, by simp, fun y hy => by
        have := h3 y hy
        simp only [ne_eq, neg_inj] at this ⊢
        rw [hz2]; exact this⟩)
    refine ⟨z, hzin, hz2, ?_, fun z2 hz2in hz2c => ?_⟩
    · rw [h1] at hmap he
      have hp := List.pairwise_append.mp hmap
      rcases List.mem_append.mp he with hpre | hrest
      · exact absurd rfl (h3 e hpre)
      · rcases List.mem_cons.mp hrest with heq | hpost
        · exact Or.inl (by rw [heq])
        · exact Or.inr ((List.pairwise_cons.mp hp.2.1).1 e hpost)
    · exact pairwise_key_unique hs hz2in hzin (by
        show -z2.2 = -z.2
        omega)

/-- C17, at the sample session (counters a:3, b:5, c:5): b:5 and a:3 are written. -/
theorem C17_rule_section_contents_witness :
    sampleRulesSession.matched_simplifier_rules.Pairwise (fun a b => a.1.data < b.1.data) ∧
      (finalize (fun _ => "") "" sampleRulesSession).2.matched_simplifier_rules.Pairwise
        (fun a b => a.2 > b.2) ∧
      (finalize (fun _ => "") "" sampleRulesSession).2.matched_simplifier_rules =
        [("b", 5), ("a", 3)] :=
  ⟨by decide,
    (C17_rule_section_contents (fun _ => "") "" sampleRulesSession (by decide)).1,
    by decide⟩

/-! ## The frame of `anonymize` -/

theorem anonymize_loop_vars_getElem? : ∀ (l : List (String × Expr)) (m : Remapping) (i : Nat)
    (it : String × Expr), l[i]? = some it →
    (anonymize_loop_vars l m).1[i]? =
      some ((remap_var_name it.1 (anonymize_loop_vars (l.take i) m).2).1,
        (mutate it.2 (remap_var_name it.1 (anonymize_loop_vars (l.take i) m).2).2).1)
  | [], _, _, _, h => by simp at h
  | x :: xs, m, 0, it, h => by
      simp only [List.getElem?_cons_zero, Option.some.injEq] at h
      subst h
      simp [anonymize_loop_vars]
  | x :: xs, m, i + 1, it, h => by
      simp only [List.getElem?_cons_succ] at h
      have ih := anonymize_loop_vars_getElem? xs
        (mutate x.2 (remap_var_name x.1 m).2).2 i it h
      simpa only [anonymize_loop_vars, List.getElem?_cons_succ, List.take_succ_cons] using ih

theorem anonymize_failed_getElem? : ∀ (l : List (Expr × Expr)) (m : Remapping) (i : Nat)
    (it : Expr × Expr), l[i]? = some it →
    (anonymize_failed l m).1[i]? =
      some ((mutate it.1 (anonymize_failed (l.take i) m).2).1,
        (mutate it.2 (mutate it.1 (anonymize_failed (l.take i) m).2).2).1)
  | [], _, _, _, h => by simp at h
  | x :: xs, m, 0, it, h => by
      simp only [List.getElem?_cons_zero, Option.some.injEq] at h
      subst h
      simp [anonymize_failed]
  | x :: xs, m, i + 1, it, h => by
      simp only [List.getElem?_cons_succ] at h
      have ih := anonymize_failed_getElem? xs (mutate x.2 (mutate x.1 m).2).2 i it h
      simpa only [anonymize_failed, List.getElem?_cons_succ, List.take_succ_cons] using ih

theorem anonymize_loop_vars_length (l : List (String × Expr)) (m : Remapping) :
    (anonymize_loop_vars l m).1.length = l.length := by
  rw [((anonymize_loop_vars_replaced l m).2 _ (List.prefix_refl _)).1, List.length_map]

theorem anonymize_failed_length (l : List (Expr × Expr)) (m : Remapping) :
    (anonymize_failed l m).1.length = l.length := by
  rw [(anonymize_failed_replaced l m).2 _ (List.prefix_refl _), List.length_map]

/-- C19.  The frame of `anonymize`: the rule counters and the output path are unchanged and
both observation sequences keep their length and order.  When the opt-out is not set, the
i-th record after the call is the rewrite of the i-th record before it, made with the map as
the anonymizer holds it after the records in front (the loop observations first, then the
failed proofs); when it is set, the i-th record is the i-th record itself. -/
theorem C19_anonymize_frame (no_anon : String) (s : BasicTelemetry) :
    (anonymize no_anon s).matched_simplifier_rules = s.matched_simplifier_rules ∧
      (anonymize no_anon s).output_path = s.output_path ∧
      (anonymize no_anon s).non_monotonic_loop_vars.length = s.non_monotonic_loop_vars.length ∧
      (anonymize no_anon s).failed_to_prove_exprs.length = s.failed_to_prove_exprs.length ∧
      (no_anon ≠ "1" →
        (∀ (i : Nat) (it : String × Expr), s.non_monotonic_loop_vars[i]? = some it →
          (anonymize no_anon s).non_monotonic_loop_vars[i]? =
            some ((remap_var_name it.1
                (anonymize_loop_vars (s.non_monotonic_loop_vars.take i) []).2).1,
              (mutate it.2 (remap_var_name it.1
                (anonymize_loop_vars (s.non_monotonic_loop_vars.take i) []).2).2).1)) ∧
        ∀ (i : Nat) (it : Expr × Expr), s.failed_to_prove_exprs[i]? = some it →
          (anonymize no_anon s).failed_to_prove_exprs[i]? =
            some ((mutate it.1
                (anonymize_failed (s.failed_to_prove_exprs.take i)
                  (anonymize_loop_vars s.non_monotonic_loop_vars []).2).2).1,
              (mutate it.2 (mutate it.1
                (anonymize_failed (s.failed_to_prove_exprs.take i)
                  (anonymize_loop_vars s.non_monotonic_loop_vars []).2).2).2).1)) ∧
      (no_anon = "1" →
        (anonymize no_anon s).non_monotonic_loop_vars = s.non_monotonic_loop_vars ∧
          (anonymize no_anon s).failed_to_prove_exprs = s.failed_to_prove_exprs) := by
  refine ⟨(anonymize_frame no_anon s).1, (anonymize_frame no_anon s).2, ?_, ?_, fun h => ?_,
    fun h => by simp [anonymize, h]⟩
  · by_cases h : no_anon = "1"
    · simp [anonymize, h]
    · simp only [anonymize, if_neg h, anonymize_loop_vars_length]
  · by_cases h : no_anon = "1"
    · simp [anonymize, h]
    · simp only [anonymize, if_neg h, anonymize_failed_length]
  · refine ⟨fun i it hi => ?_, fun i it hi => ?_⟩
    · simp only [anonymize, if_neg h]
      exact anonymize_loop_vars_getElem? _ _ i it hi
    · simp only [anonymize, if_neg h]
      exact anonymize_failed_getElem? _ _ i it hi

/-- C19, at the sample session with the opt-out unset: the second loop observation. -/
theorem C19_anonymize_frame_witness :
    "" ≠ "1" ∧
      (anonymize "" sampleSession).non_monotonic_loop_vars[1]? =
        some ("anon0", Expr.Variable Int32 "anon1") :=
  ⟨by decide,
    (((C19_anonymize_frame "" sampleSession).2.2.2.2.1 (by decide)).1 1
      ("v", Expr.Variable Int32 "w") rfl).trans rfl⟩

/-! ## The `remap` calls of a rewrite -/

theorem remapAll_append (a b : List (String × String)) (m : Remapping) :
    remapAll (a ++ b) m = remapAll b (remapAll a m) := by
  induction a generalizing m with
  | nil => rfl
  | cons c cs ih =>
    show remapAll (cs ++ b) (remap c.1 c.2 m).2 = remapAll b (remapAll cs (remap c.1 c.2 m).2)
    exact ih _

theorem visit_Call_state (t : Type_) (name : String) (args : List Expr) (ct : CallType)
    (m : Remapping) :
    (visit_Call t name args ct m).2 = remapAll (Expr.Call t name args ct).visits m := by
  cases ct <;> simp [visit_Call, Expr.visits, remapAll]

mutual
/-- The map after a rewrite is the map after the `remap` calls of the tree. -/
theorem mutate_state : ∀ (e : Expr) (m : Remapping), (mutate e m).2 = remapAll e.visits m
  | Expr.IntImm _ _, _ => rfl
  | Expr.UIntImm _ _, _ => rfl
  | Expr.StringImm _, _ => rfl
  | Expr.Cast t value, m => by
      simpa only [mutate, Expr.visits] using mutate_state value m
  | Expr.Variable _ _, _ => rfl
  | Expr.Binary op t a b, m => by
      simp only [mutate, Expr.visits, remapAll_append, mutate_state a m,
        mutate_state b (remapAll a.visits m)]
  | Expr.Not t a, m => by
      simpa only [mutate, Expr.visits] using mutate_state a m
  | Expr.Select t c tv fv, m => by
      simp only [mutate, Expr.visits, remapAll_append, mutate_state c m,
        mutate_state tv (remapAll c.visits m),
        mutate_state fv (remapAll tv.visits (remapAll c.visits m))]
  | Expr.Load t name predicate index, m => by
      simp only [mutate, Expr.visits, remapAll_append, mutate_state predicate m,
        mutate_state index (remapAll predicate.visits m)]
  | Expr.Ramp t base stride lanes, m => by
      simp only [mutate, Expr.visits, remapAll_append, mutate_state base m,
        mutate_state stride (remapAll base.visits m)]
  | Expr.Broadcast t value lanes, m => by
      simpa only [mutate, Expr.visits] using mutate_state value m
  | Expr.Let t name value body, m => by
      simp only [mutate, Expr.visits, remapAll_append, mutate_state value m,
        mutate_state body (remapAll value.visits m)]
  | Expr.Call t name args ct, m => by
      simpa only [mutate] using visit_Call_state t name args ct m
  | Expr.Shuffle t vectors indices, m => by
      simpa only [mutate, Expr.visits] using mutateList_state vectors m
theorem mutateList_state : ∀ (es : List Expr) (m : Remapping),
    (mutateList es m).2 = remapAll (Expr.visitsList es) m
  | [], _ => rfl
  | e :: es, m => by
      simp only [mutateList, Expr.visitsList, remapAll_append, mutate_state e m,
        mutateList_state es (remapAll e.visits m)]
end

theorem anonymize_loop_vars_state (l : List (String × Expr)) (m : Remapping) :
    (anonymize_loop_vars l m).2 = remapAll (loop_visits l) m := by
  induction l generalizing m with
  | nil => rfl
  | cons it rest ih =>
    simp only [anonymize_loop_vars, loop_visits, remapAll, remapAll_append, remap_var_name,
      mutate_state, ih]

theorem anonymize_failed_state (l : List (Expr × Expr)) (m : Remapping) :
    (anonymize_failed l m).2 = remapAll (failed_visits l) m := by
  induction l generalizing m with
  | nil => rfl
  | cons it rest ih =>
    simp only [anonymize_failed, failed_visits, remapAll_append, mutate_state, ih]

/-- The anonymizer's final map is the map after all `remap` calls of the pass. -/
theorem anonymizer_map_eq (s : BasicTelemetry) :
    anonymizer_map s = remapAll (session_visits s) [] := by
  simp only [anonymizer_map, session_visits, remapAll_append, anonymize_loop_vars_state,
    anonymize_failed_state]

mutual
/-- The `remap` calls on a rewritten tree: the same names, replaced, all as variables. -/
theorem visits_replaced (f : String → String) : ∀ (e : Expr),
    (e.replaced f).visits = e.visits.map (fun c => (f c.1, "anon"))
  | Expr.IntImm _ _ => rfl
  | Expr.UIntImm _ _ => rfl
  | Expr.StringImm _ => rfl
  | Expr.Cast t value => by
      simpa only [Expr.replaced, Expr.visits] using visits_replaced f value
  | Expr.Variable _ _ => rfl
  | Expr.Binary op t a b => by
      simp only [Expr.replaced, Expr.visits, List.map_append, visits_replaced f a,
        visits_replaced f b]
  | Expr.Not t a => by
      simpa only [Expr.replaced, Expr.visits] using visits_replaced f a
  | Expr.Select t c tv fv => by
      simp only [Expr.replaced, Expr.visits, List.map_append, visits_replaced f c,
        visits_replaced f tv, visits_replaced f fv]
  | Expr.Load t name predicate index => by
      simp only [Expr.replaced, Expr.visits, List.map_append, visits_replaced f predicate,
        visits_replaced f index]
  | Expr.Ramp t base stride lanes => by
      simp only [Expr.replaced, Expr.visits, List.map_append, visits_replaced f base,
        visits_replaced f stride]
  | Expr.Broadcast t value lanes => by
      simpa only [Expr.replaced, Expr.visits] using visits_replaced f value
  | Expr.Let t name value body => by
      simp only [Expr.replaced, Expr.visits, List.map_append, visits_replaced f value,
        visits_replaced f body]
  | Expr.Call t name args ct => by
      cases ct <;> simp [Expr.replaced, Expr.visits, CallType.isExternOrImage]
  | Expr.Shuffle t vectors indices => by
      simpa only [Expr.replaced, Expr.visits] using visitsList_replaced f vectors
theorem visitsList_replaced (f : String → String) : ∀ (es : List Expr),
    Expr.visitsList (Expr.replacedList f es) =
      (Expr.visitsList es).map (fun c => (f c.1, "anon"))
  | [] => rfl
  | e :: es => by
      simp only [Expr.replacedList, Expr.visitsList, List.map_append, visits_replaced f e,
        visitsList_replaced f es]
end

mutual
/-- Replacing twice is replacing once with the composed function. -/
theorem replaced_replaced (f g : String → String) : ∀ (e : Expr),
    (e.replaced f).replaced g = e.replaced (fun n => g (f n))
  | Expr.IntImm _ _ => rfl
  | Expr.UIntImm _ _ => rfl
  | Expr.StringImm _ => rfl
  | Expr.Cast t value => by
      simp only [Expr.replaced, replaced_replaced f g value]
  | Expr.Variable _ _ => rfl
  | Expr.Binary op t a b => by
      simp only [Expr.replaced, replaced_replaced f g a, replaced_replaced f g b]
  | Expr.Not t a => by
      simp only [Expr.replaced, replaced_replaced f g a]
  | Expr.Select t c tv fv => by
      simp only [Expr.replaced, replaced_replaced f g c, replaced_replaced f g tv,
        replaced_replaced f g fv]
  | Expr.Load t name predicate index => by
      simp only [Expr.replaced, replaced_replaced f g predicate, replaced_replaced f g index]
  | Expr.Ramp t base stride lanes => by
      simp only [Expr.replaced, replaced_replaced f g base, replaced_replaced f g stride]
  | Expr.Broadcast t value lanes => by
      simp only [Expr.replaced, replaced_replaced f g value]
  | Expr.Let t name value body => by
      simp only [Expr.replaced, replaced_replaced f g value, replaced_replaced f g body]
  | Expr.Call t name args ct => by
      cases ct <;> simp [Expr.replaced, CallType.isExternOrImage]
  | Expr.Shuffle t vectors indices => by
      simp only [Expr.replaced, replacedList_replacedList f g vectors]
theorem replacedList_replacedList (f g : String → String) : ∀ (es : List Expr),
    Expr.replacedList g (Expr.replacedList f es) = Expr.replacedList (fun n => g (f n)) es
  | [] => rfl
  | e :: es => by
      simp only [Expr.replacedList, replaced_replaced f g e, replacedList_replacedList f g es]
end

mutual
/-- Without calls of kind Extern, ExternCPlusPlus or Image, every `remap` call of the rewrite
comes with the replacement string "anon". -/
theorem visits_anon : ∀ (e : Expr), (∀ c ∈ e.callKinds, c.isExternOrImage = false) →
    ∀ c ∈ e.visits, c.2 = "anon"
  | Expr.IntImm _ _, _ => by simp [Expr.visits]
  | Expr.UIntImm _ _, _ => by simp [Expr.visits]
  | Expr.StringImm _, _ => by simp [Expr.visits]
  | Expr.Cast t value, h => by
      simp only [Expr.callKinds] at h
      simpa only [Expr.visits] using visits_anon value h
  | Expr.Variable _ _, _ => by simp [Expr.visits]
  | Expr.Binary op t a b, h => by
      simp only [Expr.callKinds, List.mem_append] at h
      intro c hc
      simp only [Expr.visits, List.mem_append] at hc
      rcases hc with hc | hc
      · exact visits_anon a (fun d hd => h d (Or.inl hd)) c hc
      · exact visits_anon b (fun d hd => h d (Or.inr hd)) c hc
  | Expr.Not t a, h => by
      simp only [Expr.callKinds] at h
      simpa only [Expr.visits] using visits_anon a h
  | Expr.Select t cnd tv fv, h => by
      simp only [Expr.callKinds, List.mem_append] at h
      intro c hc
      simp only [Expr.visits, List.mem_append] at hc
      rcases hc with hc | hc | hc
      · exact visits_anon cnd (fun d hd => h d (Or.inl (Or.inl hd))) c hc
      · exact visits_anon tv (fun d hd => h d (Or.inl (Or.inr hd))) c hc
      · exact visits_anon fv (fun d hd => h d (Or.inr hd)) c hc
  | Expr.Load t name predicate index, h => by
      simp only [Expr.callKinds, List.mem_append] at h
      intro c hc
      simp only [Expr.visits, List.mem_append] at hc
      rcases hc with hc | hc
      · exact visits_anon predicate (fun d hd => h d (Or.inl hd)) c hc
      · exact visits_anon index (fun d hd => h d (Or.inr hd)) c hc
  | Expr.Ramp t base stride lanes, h => by
      simp only [Expr.callKinds, List.mem_append] at h
      intro c hc
      simp only [Expr.visits, List.mem_append] at hc
      rcases hc with hc | hc
      · exact visits_anon base (fun d hd => h d (Or.inl hd)) c hc
      · exact visits_anon stride (fun d hd => h d (Or.inr hd)) c hc
  | Expr.Broadcast t value lanes, h => by
      simp only [Expr.callKinds] at h
      simpa only [Expr.visits] using visits_anon value h
  | Expr.Let t name value body, h => by
      simp only [Expr.callKinds, List.mem_append] at h
      intro c hc
      simp only [Expr.visits, List.mem_append] at hc
      rcases hc with hc | hc
      · exact visits_anon value (fun d hd => h d (Or.inl hd)) c hc
      · exact visits_anon body (fun d hd => h d (Or.inr hd)) c hc
  | Expr.Call t name args ct, h => by
      have hct := h ct (by simp [Expr.callKinds])
      cases ct <;> simp [CallType.isExternOrImage] at hct <;> simp [Expr.visits]
  | Expr.Shuffle t vectors indices, h => by
      simp only [Expr.callKinds] at h
      simpa only [Expr.visits] using visitsList_anon vectors h
theorem visitsList_anon : ∀ (es : List Expr),
    (∀ c ∈ Expr.callKindsList es, c.isExternOrImage = false) →
    ∀ c ∈ Expr.visitsList es, c.2 = "anon"
  | [], _ => by simp [Expr.visitsList]
  | e :: es, h => by
      simp only [Expr.callKindsList, List.mem_append] at h
      intro c hc
      simp only [Expr.visitsList, List.mem_append] at hc
      rcases hc with hc | hc
      · exact visits_anon e (fun d hd => h d (Or.inl hd)) c hc
      · exact visitsList_anon es (fun d hd => h d (Or.inr hd)) c hc
end

/-! ## A second pass over anonymized records -/

theorem aliasOf_remapAll_of_getElem? {V : List (String × String)} {i : Nat} {n p : String}
    (h : (firstRequests V)[i]? = some (n, p)) :
    Remapping.aliasOf (remapAll V []) n = p ++ toString i := by
  have hl := lookup_numbered (k := 0) (firstRequests_nodup V) h
  rw [Remapping.aliasOf, remapAll_fresh, hl]
  simp

theorem aliasOf_remapAll_injective (V : List (String × String))
    (hp : ∀ c ∈ V, c.2 ∈ replacements) {a b : String} (ha : a ∈ V.map Prod.fst)
    (hb : b ∈ V.map Prod.fst)
    (h : Remapping.aliasOf (remapAll V []) a = Remapping.aliasOf (remapAll V []) b) :
    a = b := by
  obtain ⟨ca, hca, rfl⟩ := List.mem_map.mp (mem_firstRequests_fst.mpr ha)
  obtain ⟨cb, hcb, rfl⟩ := List.mem_map.mp (mem_firstRequests_fst.mpr hb)
  obtain ⟨i, hi⟩ := List.getElem?_of_mem hca
  obtain ⟨j, hj⟩ := List.getElem?_of_mem hcb
  rw [aliasOf_remapAll_of_getElem? (n := ca.1) (p := ca.2) hi,
    aliasOf_remapAll_of_getElem? (n := cb.1) (p := cb.2) hj] at h
  have hij : i = j :=
    alias_number_eq (replacements_digit_free _ (hp ca (mem_of_mem_firstRequests hca)))
      (replacements_digit_free _ (hp cb (mem_of_mem_firstRequests hcb))) h
  subst hij
  rw [hi] at hj
  simp only [Option.some.injEq] at hj
  rw [hj]

theorem firstRequests_map (f : String → String) (q : String) (l : List (String × String))
    (hinj : ∀ a ∈ l.map Prod.fst, ∀ b ∈ l.map Prod.fst, f a = f b → a = b) :
    firstRequests (l.map (fun c => (f c.1, q))) =
      (firstRequests l).map (fun c => (f c.1, q)) := by
  induction l with
  | nil => rfl
  | cons c l ih =>
    have ih2 := ih (fun a ha b hb =>
      hinj a (List.mem_cons_of_mem _ ha) b (List.mem_cons_of_mem _ hb))
    simp only [List.map_cons, firstRequests, ih2, List.filter_map, List.cons.injEq, true_and]
    congr 1
    apply List.filter_congr
    intro d hd
    have hdl : d.1 ∈ (c :: l).map Prod.fst :=
      List.mem_map.mpr ⟨d, List.mem_cons_of_mem _ (mem_of_mem_firstRequests hd), rfl⟩
    have hcl : c.1 ∈ (c :: l).map Prod.fst :=
      List.mem_map.mpr ⟨c, List.mem_cons_self _ _, rfl⟩
    by_cases hdc : d.1 = c.1
    · simp [hdc]
    · have : ¬ f d.1 = f c.1 := fun h2 => hdc (hinj _ hdl _ hcl h2)
      simp [hdc, this]

/-- After a pass whose `remap` calls all came with "anon", a second pass over the aliased
names maps every name to itself. -/
theorem remapAll_second_pass (V : List (String × String)) (hV : ∀ c ∈ V, c.2 = "anon") :
    ∀ e ∈ remapAll (V.map (fun c => (Remapping.aliasOf (remapAll V []) c.1, "anon"))) [],
      e.1 = e.2 := by
  intro e he
  have hp : ∀ c ∈ V, c.2 ∈ replacements := fun c hc => by
    rw [hV c hc]; decide
  rw [remapAll_fresh, firstRequests_map _ _ V
    (fun a ha b hb => aliasOf_remapAll_injective V hp ha hb)] at he
  obtain ⟨i, p, hi, hx⟩ := mem_numbered (a := e.1) (x := e.2) he
  rw [List.getElem?_map] at hi
  cases hc : (firstRequests V)[i]? with
  | none => simp [hc] at hi
  | some c =>
    simp only [hc, Option.map_some', Option.some.injEq, Prod.mk.injEq] at hi
    have hc2 : c.2 = "anon" := hV c (mem_of_mem_firstRequests (List.getElem?_mem hc))
    have ha := aliasOf_remapAll_of_getElem? (V := V) (i := i) (n := c.1) (p := c.2) hc
    rw [hx, ← hi.1, ← hi.2, ha, hc2]
    simp

theorem aliasOf_of_identity {m : Remapping} (h : ∀ e ∈ m, e.1 = e.2) (n : String) :
    Remapping.aliasOf m n = n := by
  unfold Remapping.aliasOf
  cases hl : Remapping.lookup n m with
  | none => rfl
  | some v => exact (h (n, v) (lookup_mem hl)).symm

theorem loop_visits_map (f : String → String) (l : List (String × Expr)) :
    loop_visits (l.map (fun it => (f it.1, it.2.replaced f))) =
      (loop_visits l).map (fun c => (f c.1, "anon")) := by
  induction l with
  | nil => rfl
  | cons it rest ih =>
    simp only [List.map_cons, loop_visits, List.map_append, visits_replaced, ih]

theorem failed_visits_map (f : String → String) (l : List (Expr × Expr)) :
    failed_visits (l.map (fun it => (it.1.replaced f, it.2.replaced f))) =
      (failed_visits l).map (fun c => (f c.1, "anon")) := by
  induction l with
  | nil => rfl
  | cons it rest ih =>
    simp only [List.map_cons, failed_visits, List.map_append, visits_replaced, ih]

theorem loop_visits_anon (l : List (String × Expr))
    (h : ∀ it ∈ l, ∀ c ∈ it.2.callKinds, c.isExternOrImage = false) :
    ∀ c ∈ loop_visits l, c.2 = "anon" := by
  induction l with
  | nil => simp [loop_visits]
  | cons it rest ih =>
    intro c hc
    simp only [loop_visits, List.mem_cons, List.mem_append] at hc
    rcases hc with hc | hc | hc
    · rw [hc]
    · exact visits_anon it.2 (h it (List.mem_cons_self _ _)) c hc
    · exact ih (fun it2 h2 => h it2 (List.mem_cons_of_mem _ h2)) c hc

theorem failed_visits_anon (l : List (Expr × Expr))
    (h : ∀ it ∈ l, (∀ c ∈ it.1.callKinds, c.isExternOrImage = false) ∧
      ∀ c ∈ it.2.callKinds, c.isExternOrImage = false) :
    ∀ c ∈ failed_visits l, c.2 = "anon" := by
  induction l with
  | nil => simp [failed_visits]
  | cons it rest ih =>
    intro c hc
    simp only [failed_visits, List.mem_append] at hc
    rcases hc with hc | hc | hc
    · exact visits_anon it.1 (h it (List.mem_cons_self _ _)).1 c hc
    · exact visits_anon it.2 (h it (List.mem_cons_self _ _)).2 c hc
    · exact ih (fun it2 h2 => h it2 (List.mem_cons_of_mem _ h2)) c hc

/-- The records after `anonymize` when the opt-out is not set: every record replaced with
the anonymizer's final map. -/
theorem anonymize_of_ne (no_anon : String) (s : BasicTelemetry) (h : no_anon ≠ "1") :
    anonymize no_anon s =
      { s with
        non_monotonic_loop_vars := s.non_monotonic_loop_vars.map (fun it =>
          (Remapping.aliasOf (anonymizer_map s) it.1,
            it.2.replaced (Remapping.aliasOf (anonymizer_map s))))
        failed_to_prove_exprs := s.failed_to_prove_exprs.map (fun it =>
          (it.1.replaced (Remapping.aliasOf (anonymizer_map s)),
            it.2.replaced (Remapping.aliasOf (anonymizer_map s)))) } := by
  have hl := anonymize_loop_vars_replaced s.non_monotonic_loop_vars []
  have hf := anonymize_failed_replaced s.failed_to_prove_exprs
    (anonymize_loop_vars s.non_monotonic_loop_vars []).2
  have h1 := (hl.2 (anonymizer_map s) hf.1).1
  have h2 := hf.2 (anonymizer_map s) (List.prefix_refl _)
  simp only [anonymize, if_neg h, h1, h2]

/-- C20.  Re-anonymization is stable: on a session whose retained expressions hold no call
of kind Extern, ExternCPlusPlus or Image, applying `anonymize` a second time (with a new
anonymizer) leaves the session that the first application has produced. -/
theorem C20_reanonymization_stable (no_anon : String) (s : BasicTelemetry)
    (hl : ∀ it ∈ s.non_monotonic_loop_vars, ∀ c ∈ it.2.callKinds, c.isExternOrImage = false)
    (hf : ∀ it ∈ s.failed_to_prove_exprs,
      (∀ c ∈ it.1.callKinds, c.isExternOrImage = false) ∧
        ∀ c ∈ it.2.callKinds, c.isExternOrImage = false) :
    anonymize no_anon (anonymize no_anon s) = anonymize no_anon s := by
  by_cases h : no_anon = "1"
  · simp [anonymize, h]
  · have hV : ∀ c ∈ session_visits s, c.2 = "anon" := by
      intro c hc
      simp only [session_visits, List.mem_append] at hc
      rcases hc with hc | hc
      · exact loop_visits_anon _ hl c hc
      · exact failed_visits_anon _ hf c hc
    have h1 := anonymize_of_ne no_anon s h
    have hmap2 : anonymizer_map (anonymize no_anon s) =
        remapAll ((session_visits s).map
          (fun c => (Remapping.aliasOf (remapAll (session_visits s) []) c.1, "anon"))) [] := by
      rw [anonymizer_map_eq, h1, ← anonymizer_map_eq s]
      simp only [session_visits, loop_visits_map, failed_visits_map, List.map_append]
    have hid : ∀ n, Remapping.aliasOf (anonymizer_map (anonymize no_anon s)) n = n := by
      rw [hmap2]
      exact aliasOf_of_identity (remapAll_second_pass _ hV)
    have hfun : Remapping.aliasOf (anonymizer_map (anonymize no_anon s)) = fun n => n :=
      funext hid
    rw [anonymize_of_ne no_anon (anonymize no_anon s) h, hfun]
    conv_lhs => rw [h1]
    conv_rhs => rw [h1]
    simp only [List.map_map, Function.comp_def, replaced_replaced]

/-- C20, at the sample session without its Image call, with the opt-out unset. -/
theorem C20_reanonymization_stable_witness :
    (∀ it ∈ ({ sampleSession with failed_to_prove_exprs := [] } :
        BasicTelemetry).non_monotonic_loop_vars,
        ∀ c ∈ it.2.callKinds, c.isExternOrImage = false) ∧
      anonymize "" (anonymize "" { sampleSession with failed_to_prove_exprs := [] }) =
        anonymize "" { sampleSession with failed_to_prove_exprs := [] } :=
  ⟨by decide,
    C20_reanonymization_stable "" { sampleSession with failed_to_prove_exprs := [] }
      (by decide) (by simp)⟩

end Halide
